import Mathlib

/-!
Verification of the getx-locale extension core: key extraction, locale-store
merge, translation-provider management, orchestration and validation.

Strings are modelled as `List Char` (JS strings are sequences of UTF-16 units;
all characters appearing here lie in the basic multilingual plane, where the
two notions coincide).  Each JS regular expression used by the source is
modelled by a deterministic scanner: for the patterns in question the regex
engine's backtracking never produces a different result than greedy scanning,
because every quantified class excludes the character that must follow it.
-/

/-- Named characters used throughout (kept out of string literals). -/
def dqc : Char := Char.ofNat 34

def sqc : Char := Char.ofNat 39

def nlc : Char := Char.ofNat 10

def lbc : Char := Char.ofNat 123

def rbc : Char := Char.ofNat 125

def dollarc : Char := Char.ofNat 36

def backqc : Char := Char.ofNat 96

/-- The JS `\s` whitespace class (the members relevant to BMP text). -/
def isWsJs (c : Char) : Bool :=
  c = ' ' || c = Char.ofNat 9 || c = nlc || c = Char.ofNat 11 ||
  c = Char.ofNat 12 || c = Char.ofNat 13 || c = Char.ofNat 160 ||
  c = Char.ofNat 0x1680 || (0x2000 ≤ c.toNat && c.toNat ≤ 0x200a) ||
  c = Char.ofNat 0x2028 || c = Char.ofNat 0x2029 || c = Char.ofNat 0x202f ||
  c = Char.ofNat 0x205f || c = Char.ofNat 0x3000 || c = Char.ofNat 0xfeff

/-- A quote character, i.e. the class `["']` of the source's regexes. -/
def isQuote (c : Char) : Bool := c = dqc || c = sqc

/-- The JS `\w` word class. -/
def isWordChar (c : Char) : Bool :=
  (Char.ofNat 97 ≤ c && c ≤ Char.ofNat 122) ||
  (Char.ofNat 65 ≤ c && c ≤ Char.ofNat 90) ||
  (Char.ofNat 48 ≤ c && c ≤ Char.ofNat 57) || c = '_'

/-- JS `String.prototype.trim`. -/
def trimJs (s : List Char) : List Char :=
  ((s.dropWhile isWsJs).reverse.dropWhile isWsJs).reverse

/-!
## The key/value-pair scanner

Models `/["']([^"']+)["']\s*:\s*["'][^"']*["']/g` (`extractExistingKeys`,
value may be empty, `minVal = false`) and
`/["']([^"']+)["']\s*:\s*["']([^"']+)["']/g` (the English-fallback capture in
`addKeysWithTranslation`, value non-empty, `minVal = true`).
-/

/-- Attempt the key/value pattern at the head of `s`; on success returns the
captured key, the captured value and the remainder after the match. -/
def matchKV (minVal : Bool) (s : List Char) : Option (List Char × List Char × List Char) :=
  match s with
  | [] => none
  | c :: rest =>
    if isQuote c then
      let key := rest.takeWhile (fun d => !isQuote d)
      let r2 := rest.dropWhile (fun d => !isQuote d)
      if key.isEmpty then none else
      match r2 with
      | [] => none
      | _ :: r3 =>
        let r4 := r3.dropWhile isWsJs
        match r4 with
        | ':' :: r5 =>
          let r6 := r5.dropWhile isWsJs
          match r6 with
          | [] => none
          | c2 :: r7 =>
            if isQuote c2 then
              let v := r7.takeWhile (fun d => !isQuote d)
              let r8 := r7.dropWhile (fun d => !isQuote d)
              if minVal && v.isEmpty then none else
              match r8 with
              | [] => none
              | _ :: r9 => some (key, v, r9)
            else none
        | _ => none
    else none

/-- Global scan (`regex.exec` loop / `matchAll`), fuelled; `scanKV` supplies
sufficient fuel. On failure at a position the engine advances one character;
on success it continues after the match. -/
def scanKVGo (minVal : Bool) : Nat → List Char → List (List Char × List Char)
  | 0, _ => []
  | _ + 1, [] => []
  | n + 1, c :: rest =>
    match matchKV minVal (c :: rest) with
    | some (k, v, r9) => (k, v) :: scanKVGo minVal n r9
    | none => scanKVGo minVal n rest

def scanKV (minVal : Bool) (s : List Char) : List (List Char × List Char) :=
  scanKVGo minVal s.length s

/-- `extractExistingKeys` from `src/src/utils/translation.ts`. -/
def extractExistingKeys (content : List Char) : List (List Char) :=
  (scanKV false content).map (fun p => p.1)

/-!
## The translation-map locator

Models `/Map<String,\s*String>\s+\w+\s*=\s*{([^}]*)}/s` used by
`addKeysToTranslationFile` (both via `.match` and as the pattern of
`.replace`).
-/

/-- Consume an exact literal. -/
def dropLit : List Char → List Char → Option (List Char)
  | [], s => some s
  | _ :: _, [] => none
  | c :: p, d :: s => if c = d then dropLit p s else none

structure MapMatch where
  pre : List Char
  matched : List Char
  body : List Char
  post : List Char
deriving DecidableEq

/-- Attempt the map pattern at the head of `s`; returns the matched text, the
capture (`p1`, the text between the braces) and the remainder. -/
def matchMapAt (s : List Char) : Option (List Char × List Char × List Char) :=
  match dropLit ("Map<String,".toList) s with
  | none => none
  | some r1 =>
    match dropLit ("String>".toList) (r1.dropWhile isWsJs) with
    | none => none
    | some r3 =>
      if (r3.takeWhile isWsJs).isEmpty then none else
      let r4 := r3.dropWhile isWsJs
      if (r4.takeWhile isWordChar).isEmpty then none else
      let r5 := r4.dropWhile isWordChar
      match dropLit ['='] (r5.dropWhile isWsJs) with
      | none => none
      | some r7 =>
        match dropLit [lbc] (r7.dropWhile isWsJs) with
        | none => none
        | some r9 =>
          let b := r9.takeWhile (fun d => d ≠ rbc)
          match r9.dropWhile (fun d => d ≠ rbc) with
          | [] => none
          | _ :: r11 => some (s.take (s.length - r11.length), b, r11)

/-- Leftmost match of the map pattern (fuelled position scan). -/
def findMapGo : Nat → List Char → List Char → Option MapMatch
  | 0, _, _ => none
  | n + 1, acc, s =>
    match matchMapAt s with
    | some (m, b, rest) => some ⟨acc.reverse, m, b, rest⟩
    | none =>
      match s with
      | [] => none
      | c :: t => findMapGo n (c :: acc) t

def findMap (s : List Char) : Option MapMatch :=
  findMapGo (s.length + 1) [] s

/-!
## JS `String.prototype.replace` with a string pattern

Used by the write path as `match.replace(p1, replacement)`: first occurrence
only, with `$`-substitution applied to the replacement string.
-/

/-- Does `pat` occur at the head of `s`? -/
def litAt : List Char → List Char → Bool
  | [], _ => true
  | _ :: _, [] => false
  | c :: p, d :: s => c = d && litAt p s

def firstOccGo : Nat → Nat → List Char → List Char → Option Nat
  | 0, _, _, _ => none
  | _ + 1, i, s, pat =>
    if litAt pat s then some i else
    match s with
    | [] => none
    | _ :: t => firstOccGo (s.length) (i + 1) t pat

/-- Index of the first occurrence of `pat` in `s` (JS `indexOf`); the empty
pattern occurs at index 0. -/
def firstOcc (s pat : List Char) : Option Nat :=
  firstOccGo (s.length + 1) 0 s pat

/-- JS `GetSubstitution`: expand `$$`, `$&`, the backquote form and the
quote form in a replacement string (a string pattern has no capture groups,
so `$n` stays literal). -/
def substDollar (matched before after : List Char) : List Char → List Char
  | [] => []
  | c :: rest =>
    if c = dollarc then
      match rest with
      | [] => [dollarc]
      | d :: rest2 =>
        if d = dollarc then dollarc :: substDollar matched before after rest2
        else if d = '&' then matched ++ substDollar matched before after rest2
        else if d = backqc then before ++ substDollar matched before after rest2
        else if d = sqc then after ++ substDollar matched before after rest2
        else c :: substDollar matched before after (d :: rest2)
    else c :: substDollar matched before after rest

/-- JS `s.replace(pat, rep)` for a plain-string `pat`. -/
def strReplaceOnce (s pat rep : List Char) : List Char :=
  match firstOcc s pat with
  | none => s
  | some i =>
    s.take i ++ substDollar pat (s.take i) (s.drop (i + pat.length)) rep ++
      s.drop (i + pat.length)

/-!
## The locale-store write path (`addKeysToTranslationFile`, lines 434-450)
-/

/-- One generated entry line: two spaces, `"key": "value"`. -/
def entryLine (k v : List Char) : List Char :=
  ' ' :: ' ' :: dqc :: (k ++ dqc :: ':' :: ' ' :: dqc :: (v ++ [dqc]))

/-- `newEntries.join(",\n")`. -/
def joinComma : List (List Char) → List Char
  | [] => []
  | [l] => l
  | l :: ls => l ++ ',' :: nlc :: joinComma ls

/-- The content update of `addKeysToTranslationFile`: replace the (leftmost)
map match `m` by `m.replace(p1, p1 + ",\n" + entries + "\n")` when the map
body is non-blank, and by `m.replace(p1, "\n" + entries + "\n")` otherwise. -/
def mergeNewEntries (content : List Char) (pairs : List (List Char × List Char)) :
    Option (List Char) :=
  match findMap content with
  | none => none
  | some mm =>
    let es := joinComma (pairs.map (fun kv => entryLine kv.1 kv.2))
    let rep :=
      if trimJs mm.body = [] then nlc :: (es ++ [nlc])
      else mm.body ++ ',' :: nlc :: (es ++ [nlc])
    some (mm.pre ++ strReplaceOnce mm.matched mm.body rep ++ mm.post)

/-- The keys of `keys` not already present in the file (the push loop of
lines 348-354; duplicates within `keys` are kept, as in the source). -/
def newKeysOf (content : List Char) (keys : List (List Char)) : List (List Char) :=
  keys.filter (fun k => ¬ k ∈ extractExistingKeys content)

/-- The pure content-level behaviour of `addKeysToTranslationFile` with
`useTranslation = false` (or a base locale): returns the number of keys added
and the new file content when a write occurs (`none` = no write). -/
def mergeNT (content : List Char) (keys : List (List Char)) :
    Nat × Option (List Char) :=
  match findMap content with
  | none => (0, none)
  | some _ =>
    let nk := newKeysOf content keys
    if nk = [] then (0, none)
    else (nk.length, mergeNewEntries content (nk.map (fun k => (k, k))))

/-- The concrete file of claim C2: an empty translation map. -/
def emptyMapFile : List Char :=
  ("Map<String, String> en = ".toList) ++ [lbc, rbc, ';']

def helloKey : List Char := "hello".toList

/-- What the code actually produces on `emptyMapFile`: since the captured map
body `p1` is the empty string, `match.replace(p1, rep)` prepends `rep` to the
match, so the new entry lands before the declaration, outside the braces. -/
def emptyMapFileOut : List Char :=
  (nlc :: (entryLine helloKey helloKey ++ [nlc])) ++ emptyMapFile

/-- Claim C2 (code_bug). Writing the single key `hello` into the empty table
`Map<String, String> en = ` followed by empty braces does NOT insert the entry
inside the braces: the update prepends the entry text before the whole
declaration and the table body stays empty.  This theorem evaluates the write
path at the failing input: the merge reports one key added, the resulting
content is the prepended form, and the map body of the result is still empty
while the key-scan finds the entry outside the table. -/
theorem c2_empty_map_write_bug :
    mergeNT emptyMapFile [helloKey] = (1, some emptyMapFileOut) ∧
    (findMap emptyMapFileOut).map (fun mm => mm.body) = some [] ∧
    extractExistingKeys emptyMapFileOut = [helloKey] := by
  refine ⟨?_, ?_, ?_⟩ <;> decide

/-!
## The key extractor

Models the per-content scan loop of `scanProjectForKeys`
(`/["']([^"']+)["']\.tr/g` with an inclusion-checked push).
-/

/-- Attempt the `.tr` pattern at the head of `s`. -/
def matchTr (s : List Char) : Option (List Char × List Char) :=
  match s with
  | [] => none
  | c :: rest =>
    if isQuote c then
      let key := rest.takeWhile (fun d => !isQuote d)
      match rest.dropWhile (fun d => !isQuote d) with
      | [] => none
      | _ :: r3 =>
        if key.isEmpty then none else
        match r3 with
        | '.' :: 't' :: 'r' :: r4 => some (key, r4)
        | _ => none
    else none

/-- All matches of the `.tr` pattern, in order, duplicates included. -/
def scanTrRawGo : Nat → List Char → List (List Char)
  | 0, _ => []
  | _ + 1, [] => []
  | n + 1, c :: rest =>
    match matchTr (c :: rest) with
    | some (k, r) => k :: scanTrRawGo n r
    | none => scanTrRawGo n rest

def rawTrMatches (s : List Char) : List (List Char) :=
  scanTrRawGo s.length s

/-- Append `k` unless already present (the inclusion-checked push). -/
def pushNew [DecidableEq α] (acc : List α) (k : α) : List α :=
  if k ∈ acc then acc else acc ++ [k]

/-- The source's loop: push each match only when not already collected. -/
def scanTrDedupGo : Nat → List (List Char) → List Char → List (List Char)
  | 0, acc, _ => acc
  | _ + 1, acc, [] => acc
  | n + 1, acc, c :: rest =>
    match matchTr (c :: rest) with
    | some (k, r) => scanTrDedupGo n (pushNew acc k) r
    | none => scanTrDedupGo n acc rest

/-- The key list produced for one block of text by `scanProjectForKeys`. -/
def scanTextForKeys (s : List Char) : List (List Char) :=
  scanTrDedupGo s.length [] s

/-- Keep the first occurrence of each element, drop later duplicates. -/
def dedupGo [DecidableEq α] (acc : List α) : List α → List α
  | [] => acc
  | k :: t => dedupGo (pushNew acc k) t

def dedupFirst [DecidableEq α] (l : List α) : List α := dedupGo [] l

/-- Index of the first occurrence (length of the list when absent). -/
def firstIdx [DecidableEq α] (a : α) : List α → Nat
  | [] => 0
  | b :: t => if a = b then 0 else firstIdx a t + 1

theorem takeWhile_append_stop {p : α → Bool} {a : List α} {b : α} {c : List α}
    (ha : ∀ x ∈ a, p x = true) (hb : p b = false) :
    (a ++ b :: c).takeWhile p = a := by
  induction a with
  | nil => simp [List.takeWhile, hb]
  | cons x t ih =>
    have hx : p x = true := ha x (by simp)
    simp only [List.cons_append, List.takeWhile, hx]
    simp [ih (fun y hy => ha y (by simp [hy]))]

theorem dropWhile_append_stop {p : α → Bool} {a : List α} {b : α} {c : List α}
    (ha : ∀ x ∈ a, p x = true) (hb : p b = false) :
    (a ++ b :: c).dropWhile p = b :: c := by
  induction a with
  | nil => simp [List.dropWhile, hb]
  | cons x t ih =>
    have hx : p x = true := ha x (by simp)
    simp only [List.cons_append, List.dropWhile, hx]
    simpa using ih (fun y hy => ha y (by simp [hy]))

theorem scanTrDedup_eq_dedup (n : Nat) :
    ∀ (s : List Char) (acc : List (List Char)),
      scanTrDedupGo n acc s = dedupGo acc (scanTrRawGo n s) := by
  induction n with
  | zero => intro s acc; simp [scanTrDedupGo, scanTrRawGo, dedupGo]
  | succ n ih =>
    intro s acc
    cases s with
    | nil => simp [scanTrDedupGo, scanTrRawGo, dedupGo]
    | cons c rest =>
      simp only [scanTrDedupGo, scanTrRawGo]
      rcases hm : matchTr (c :: rest) with _ | ⟨k, r⟩
      · exact ih rest acc
      · simp only [dedupGo]
        exact ih r (pushNew acc k)

theorem dedupGo_nodup [DecidableEq α] (l : List α) :
    ∀ acc : List α, acc.Nodup → (dedupGo acc l).Nodup := by
  induction l with
  | nil => intro acc h; simpa [dedupGo] using h
  | cons k t ih =>
    intro acc h
    simp only [dedupGo, pushNew]
    by_cases hk : k ∈ acc
    · simpa [hk] using ih acc h
    · refine ih _ ?_
      rw [if_neg hk]
      simp [List.nodup_append, h, hk]

theorem dedupGo_mem [DecidableEq α] (l : List α) :
    ∀ (acc : List α) (a : α), a ∈ dedupGo acc l ↔ a ∈ acc ∨ a ∈ l := by
  induction l with
  | nil => intro acc a; simp [dedupGo]
  | cons k t ih =>
    intro acc a
    simp only [dedupGo, pushNew, List.mem_cons]
    by_cases hk : k ∈ acc
    · rw [if_pos hk, ih]
      constructor
      · rintro (h | h)
        · exact Or.inl h
        · exact Or.inr (Or.inr h)
      · rintro (h | h | h)
        · exact Or.inl h
        · exact Or.inl (h ▸ hk)
        · exact Or.inr h
    · rw [if_neg hk, ih]
      simp only [List.mem_append, List.mem_singleton]
      tauto

theorem dedupGo_decomp [DecidableEq α] (l : List α) :
    ∀ acc : List α, ∃ t, dedupGo acc l = acc ++ t ∧ ∀ x ∈ t, x ∉ acc := by
  induction l with
  | nil => intro acc; exact ⟨[], by simp [dedupGo], by simp⟩
  | cons k t ih =>
    intro acc
    simp only [dedupGo, pushNew]
    by_cases hk : k ∈ acc
    · rcases ih acc with ⟨u, hu, hmem⟩
      exact ⟨u, by simpa [hk] using hu, hmem⟩
    · rcases ih (acc ++ [k]) with ⟨u, hu, hmem⟩
      refine ⟨k :: u, ?_, ?_⟩
      · rw [if_neg hk, hu]; simp
      · intro x hx
        rcases List.mem_cons.mp hx with rfl | hx
        · exact hk
        · intro hxa
          exact hmem x hx (by simp [hxa])

theorem firstIdx_append_notmem [DecidableEq α] {a : α} (t : List α) :
    ∀ m : List α, a ∉ m → firstIdx a (m ++ t) = m.length + firstIdx a t := by
  intro m
  induction m with
  | nil => intro _; simp
  | cons b m ih =>
    intro h
    have hab : a ≠ b := by rintro rfl; exact h (by simp)
    have hm : a ∉ m := fun hx => h (by simp [hx])
    show firstIdx a (b :: (m ++ t)) = (b :: m).length + firstIdx a t
    simp only [firstIdx, if_neg hab, List.length_cons, ih hm]
    omega

theorem dedupGo_order [DecidableEq α] (l : List α) :
    ∀ (acc : List α) (a b : α), a ∉ acc → b ∉ acc → a ∈ l → b ∈ l →
      (firstIdx a (dedupGo acc l) ≤ firstIdx b (dedupGo acc l) ↔
        firstIdx a l ≤ firstIdx b l) := by
  induction l with
  | nil => intro acc a b _ _ ha _; cases ha
  | cons k t ih =>
    intro acc a b hana hbna hal hbl
    by_cases hab : a = b
    · subst hab; simp
    simp only [dedupGo, pushNew]
    by_cases hk : k ∈ acc
    · rw [if_pos hk]
      have hak : a ≠ k := fun h => hana (h ▸ hk)
      have hbk : b ≠ k := fun h => hbna (h ▸ hk)
      have hat : a ∈ t := by
        rcases List.mem_cons.mp hal with h | h
        · exact absurd h hak
        · exact h
      have hbt : b ∈ t := by
        rcases List.mem_cons.mp hbl with h | h
        · exact absurd h hbk
        · exact h
      rw [ih acc a b hana hbna hat hbt]
      simp only [firstIdx, if_neg hak, if_neg hbk]
      omega
    · rw [if_neg hk]
      rcases dedupGo_decomp t (acc ++ [k]) with ⟨u, hu, humem⟩
      by_cases hak : a = k
      · subst hak
        have hbk : b ≠ a := fun h => hab h.symm
        have hbna2 : b ∉ acc ++ [a] := by
          intro h
          rcases List.mem_append.mp h with h | h
          · exact hbna h
          · exact hbk (List.mem_singleton.mp h)
        have h1 : firstIdx a (dedupGo (acc ++ [a]) t) = acc.length := by
          rw [hu, List.append_assoc, firstIdx_append_notmem _ acc hana]
          simp [firstIdx]
        have h2 : firstIdx b (dedupGo (acc ++ [a]) t) =
            (acc ++ [a]).length + firstIdx b u := by
          rw [hu, firstIdx_append_notmem _ _ hbna2]
        rw [h1, h2]
        have h3 : firstIdx a (a :: t) = 0 := by simp [firstIdx]
        rw [h3]
        simp only [List.length_append, List.length_singleton]
        constructor
        · intro _; exact Nat.zero_le _
        · intro _; omega
      · by_cases hbk : b = k
        · subst hbk
          have hana2 : a ∉ acc ++ [b] := by
            intro h
            rcases List.mem_append.mp h with h | h
            · exact hana h
            · exact hak (List.mem_singleton.mp h)
          have h1 : firstIdx b (dedupGo (acc ++ [b]) t) = acc.length := by
            rw [hu, List.append_assoc, firstIdx_append_notmem _ acc hbna]
            simp [firstIdx]
          have h2 : firstIdx a (dedupGo (acc ++ [b]) t) =
              (acc ++ [b]).length + firstIdx a u := by
            rw [hu, firstIdx_append_notmem _ _ hana2]
          rw [h1, h2]
          have h3 : firstIdx b (b :: t) = 0 := by simp [firstIdx]
          rw [h3]
          simp only [firstIdx, if_neg hak, List.length_append, List.length_singleton]
          constructor
          · intro h; omega
          · intro h; omega
        · have hat : a ∈ t := by
            rcases List.mem_cons.mp hal with h | h
            · exact absurd h hak
            · exact h
          have hbt : b ∈ t := by
            rcases List.mem_cons.mp hbl with h | h
            · exact absurd h hbk
            · exact h
          have hana2 : a ∉ acc ++ [k] := by
            intro h
            rcases List.mem_append.mp h with h | h
            · exact hana h
            · exact hak (List.mem_singleton.mp h)
          have hbna2 : b ∉ acc ++ [k] := by
            intro h
            rcases List.mem_append.mp h with h | h
            · exact hbna h
            · exact hbk (List.mem_singleton.mp h)
          rw [ih (acc ++ [k]) a b hana2 hbna2 hat hbt]
          simp only [firstIdx, if_neg hak, if_neg hbk]
          omega

theorem scanTrDedupGo_nil (n : Nat) (acc : List (List Char)) :
    scanTrDedupGo n acc [] = acc := by
  cases n <;> rfl

theorem scanText_eq_dedup (s : List Char) :
    scanTextForKeys s = dedupFirst (rawTrMatches s) :=
  scanTrDedup_eq_dedup s.length s []

/-- Any non-empty quote-free text, quoted and followed by `.tr`, is accepted
as a key with no further validation. -/
theorem tr_single_accept (k : List Char) (hk : k ≠ [])
    (hq : ∀ c ∈ k, isQuote c = false) :
    scanTextForKeys (dqc :: (k ++ [dqc, '.', 't', 'r'])) = [k] := by
  have hqd : isQuote dqc = true := by decide
  have hnq : (!isQuote dqc) = false := by decide
  have hka : ∀ x ∈ k, (!isQuote x) = true := by
    intro x hx; simp [hq x hx]
  have htake : (k ++ dqc :: ['.', 't', 'r']).takeWhile (fun d => !isQuote d) = k :=
    takeWhile_append_stop hka hnq
  have hdrop : (k ++ dqc :: ['.', 't', 'r']).dropWhile (fun d => !isQuote d) =
      dqc :: ['.', 't', 'r'] :=
    dropWhile_append_stop hka hnq
  have hke : k.isEmpty = false := by
    cases k with
    | nil => exact absurd rfl hk
    | cons a t => rfl
  have h1 : matchTr (dqc :: (k ++ [dqc, '.', 't', 'r'])) = some (k, []) := by
    simp only [matchTr, hqd, if_pos]
    rw [show (k ++ [dqc, '.', 't', 'r']) = k ++ dqc :: ['.', 't', 'r'] from rfl]
    rw [htake, hdrop]
    simp [hke]
  show scanTrDedupGo (dqc :: (k ++ [dqc, '.', 't', 'r'])).length []
      (dqc :: (k ++ [dqc, '.', 't', 'r'])) = [k]
  rw [List.length_cons]
  simp only [scanTrDedupGo, h1]
  rw [scanTrDedupGo_nil]
  simp [pushNew]

/-- The concrete example of the spec: a double-quoted key, a single-quoted
key and a repeat of the first. -/
def trExample : List Char :=
  [dqc, 'a', dqc] ++ ".tr + ".toList ++ [sqc, 'b', sqc] ++ ".tr + ".toList ++
    [dqc, 'a', dqc] ++ ".tr".toList

/-- Claim C4 (confirmed). The key extractor produces no duplicates, yields the
empty list on empty input, equals the first-occurrence dedup of the raw match
sequence, preserves membership in the raw match sequence, orders its output by
first occurrence, accepts any non-empty quoted content immediately followed by
`.tr` without further validation, and maps the spec's example to the two keys
`a`, `b` in first-seen order. -/
theorem c4_key_extractor_guarantees :
    (∀ s : List Char, (scanTextForKeys s).Nodup) ∧
    scanTextForKeys [] = [] ∧
    (∀ s, scanTextForKeys s = dedupFirst (rawTrMatches s)) ∧
    (∀ s k, k ∈ scanTextForKeys s ↔ k ∈ rawTrMatches s) ∧
    (∀ s a b, a ∈ scanTextForKeys s → b ∈ scanTextForKeys s →
      (firstIdx a (scanTextForKeys s) ≤ firstIdx b (scanTextForKeys s) ↔
        firstIdx a (rawTrMatches s) ≤ firstIdx b (rawTrMatches s))) ∧
    (∀ k, k ≠ [] → (∀ c ∈ k, isQuote c = false) →
      scanTextForKeys (dqc :: (k ++ [dqc, '.', 't', 'r'])) = [k]) ∧
    scanTextForKeys trExample = [['a'], ['b']] := by
  have hmem : ∀ (s : List Char) (k : List Char),
      k ∈ scanTextForKeys s ↔ k ∈ rawTrMatches s := by
    intro s k
    rw [scanText_eq_dedup, dedupFirst, dedupGo_mem]
    simp
  refine ⟨?_, ?_, scanText_eq_dedup, hmem, ?_, tr_single_accept, by decide⟩
  · intro s
    rw [scanText_eq_dedup]
    exact dedupGo_nodup _ [] (by simp)
  · decide
  · intro s a b ha hb
    rw [scanText_eq_dedup]
    exact dedupGo_order (rawTrMatches s) [] a b (by simp) (by simp)
      ((hmem s a).mp ha) ((hmem s b).mp hb)

/-- Witness for C4: the acceptance part at the concrete key `x`, and the
first-occurrence-order part at the spec's example. -/
theorem c4_key_extractor_witness :
    scanTextForKeys (dqc :: (['x'] ++ [dqc, '.', 't', 'r'])) = [['x']] ∧
    (firstIdx ['a'] (scanTextForKeys trExample) ≤
        firstIdx ['b'] (scanTextForKeys trExample) ↔
      firstIdx ['a'] (rawTrMatches trExample) ≤
        firstIdx ['b'] (rawTrMatches trExample)) :=
  ⟨c4_key_extractor_guarantees.2.2.2.2.2.1 ['x'] (by decide) (by decide),
   c4_key_extractor_guarantees.2.2.2.2.1 trExample ['a'] ['b']
     (by decide) (by decide)⟩

/-!
## The translation provider manager

Models `TranslationProviderManager` (registry, current pointer, failover) from
`src/api/translation-provider.ts`.  A provider is its availability flag and
its `translate` behaviour; provider behaviour is deterministic per call, which
suffices for the registry and failover-shape properties stated here.
-/

structure JsErr where
  statusCode : Option Nat
  emsg : String
deriving DecidableEq

structure Provider where
  avail : Bool
  res : String → String → Except JsErr String

structure MgrState where
  providers : List (String × Provider)
  current : Option String

/-- JS falsiness of `this.currentProvider` (undefined or empty string). -/
def optFalsy : Option String → Bool
  | none => true
  | some s => s = ""

/-- `Map.get` (insertion-ordered association list, unique keys). -/
def lookupP : List (String × Provider) → String → Option Provider
  | [], _ => none
  | (i, p) :: t, id => if i = id then some p else lookupP t id

/-- `Map.has`. -/
def hasP (ps : List (String × Provider)) (id : String) : Bool :=
  (lookupP ps id).isSome

/-- `Map.set`: overwrite in place, else append (insertion order kept). -/
def mapSet : List (String × Provider) → String → Provider → List (String × Provider)
  | [], id, p => [(id, p)]
  | (i, q) :: t, id, p =>
    if i = id then (i, p) :: t else (i, q) :: mapSet t id p

def notConfiguredErr : JsErr :=
  ⟨none, "No translation provider configured"⟩

/-- `registerProvider`: add to the registry; becomes current if none is set. -/
def registerProvider (s : MgrState) (id : String) (p : Provider) : MgrState :=
  let ps := mapSet s.providers id p
  if optFalsy s.current then ⟨ps, some id⟩ else ⟨ps, s.current⟩

/-- `unregisterProvider`: clear the pointer if it was current, then delete. -/
def unregisterProvider (s : MgrState) (id : String) : MgrState :=
  { providers := s.providers.filter (fun ip => ip.1 != id),
    current := if s.current = some id then none else s.current }

/-- `setCurrentProvider`: fails when absent or unavailable, otherwise switches
(the configuration write is external I/O and has no effect on this state). -/
def setCurrentProvider (s : MgrState) (id : String) : Except JsErr MgrState :=
  match lookupP s.providers id with
  | none => .error ⟨none, "provider not found"⟩
  | some p =>
    if p.avail then .ok { s with current := some id }
    else .error ⟨none, "provider not available"⟩

structure FOut where
  r : Except JsErr String
  cur : String
  atts : List String

/-- The failover loop of `translate` (lines 206-218): iterate the registry in
registration order; attempt every available provider whose id differs from the
current pointer, moving the pointer to each attempted id before the attempt;
return the first success; re-raise the original error `e` when none succeeds.
`atts` records the attempted ids in order. -/
def fallbackLoop (text lang : String) (e : JsErr) :
    List (String × Provider) → String → FOut
  | [], cur => ⟨.error e, cur, []⟩
  | (id, p) :: rest, cur =>
    if id = cur then fallbackLoop text lang e rest cur
    else if p.avail then
      match p.res text lang with
      | .ok r => ⟨.ok r, id, [id]⟩
      | .error _ =>
        let o := fallbackLoop text lang e rest id
        ⟨o.r, o.cur, id :: o.atts⟩
    else fallbackLoop text lang e rest cur

structure TOut where
  r : Except JsErr String
  st : MgrState
  atts : List String

/-- `TranslationProviderManager.translate` (lines 194-220). -/
def mgrTranslate (s : MgrState) (text lang : String) : TOut :=
  match s.current with
  | none => ⟨.error notConfiguredErr, s, []⟩
  | some cid =>
    if cid = "" then ⟨.error notConfiguredErr, s, []⟩ else
    match lookupP s.providers cid with
    | none => ⟨.error notConfiguredErr, s, []⟩
    | some p =>
      match p.res text lang with
      | .ok r => ⟨.ok r, s, []⟩
      | .error e =>
        let o := fallbackLoop text lang e s.providers cid
        ⟨o.r, { s with current := some o.cur }, o.atts⟩

/-- Operations of the manager, for stating the registry invariant. -/
inductive MgrOp where
  | register (id : String) (p : Provider)
  | unregister (id : String)
  | setCurrent (id : String)
  | doTranslate (text lang : String)

def mgrStep (s : MgrState) : MgrOp → MgrState
  | .register id p => registerProvider s id p
  | .unregister id => unregisterProvider s id
  | .setCurrent id =>
    match setCurrentProvider s id with
    | .ok s2 => s2
    | .error _ => s
  | .doTranslate t l => (mgrTranslate s t l).st

/-- The freshly constructed manager: empty registry, no current provider. -/
def initMgr : MgrState := ⟨[], none⟩

def mgrRun (ops : List MgrOp) : MgrState := ops.foldl mgrStep initMgr

theorem hasP_of_mem {ps : List (String × Provider)} {id : String} {p : Provider}
    (h : (id, p) ∈ ps) : hasP ps id = true := by
  induction ps with
  | nil => cases h
  | cons ip t ih =>
    obtain ⟨i, q⟩ := ip
    rcases List.mem_cons.mp h with heq | ht
    · have : i = id := (Prod.mk.injEq _ _ _ _ ▸ heq.symm).1
      simp [hasP, lookupP, this]
    · by_cases hi : i = id
      · simp [hasP, lookupP, hi]
      · simpa [hasP, lookupP, hi] using ih ht

theorem hasP_mapSet_self (ps : List (String × Provider)) (id : String) (p : Provider) :
    hasP (mapSet ps id p) id = true := by
  induction ps with
  | nil => simp [mapSet, hasP, lookupP]
  | cons ip t ih =>
    obtain ⟨i, q⟩ := ip
    by_cases hi : i = id
    · simp [mapSet, hi, hasP, lookupP]
    · simpa [mapSet, hi, hasP, lookupP] using ih

theorem hasP_mapSet_mono {ps : List (String × Provider)} {id2 : String}
    (h : hasP ps id2 = true) (id : String) (p : Provider) :
    hasP (mapSet ps id p) id2 = true := by
  induction ps with
  | nil => simp [hasP, lookupP] at h
  | cons ip t ih =>
    obtain ⟨i, q⟩ := ip
    by_cases hi : i = id
    · subst hi
      by_cases hi2 : i = id2
      · subst hi2
        simp [mapSet, hasP, lookupP]
      · simp only [hasP, lookupP, if_neg hi2] at h
        simp [mapSet, hasP, lookupP, hi2, h]
    · by_cases hi2 : i = id2
      · subst hi2
        simp [mapSet, hi, hasP, lookupP]
      · simp only [hasP, lookupP, if_neg hi2] at h
        simpa [mapSet, hi, hasP, lookupP, hi2] using ih h

theorem hasP_filter_ne {ps : List (String × Provider)} {id2 : String}
    (h : hasP ps id2 = true) (id : String) (hne : id2 ≠ id) :
    hasP (ps.filter (fun ip => ip.1 != id)) id2 = true := by
  induction ps with
  | nil => simp [hasP, lookupP] at h
  | cons ip t ih =>
    obtain ⟨i, q⟩ := ip
    by_cases hi2 : i = id2
    · subst hi2
      have hkeep : (i != id) = true := by simpa using hne
      simp [List.filter, hkeep, hasP, lookupP]
    · simp only [hasP, lookupP, if_neg hi2] at h
      by_cases hid : (i != id) = true
      · simpa [List.filter, hid, hasP, lookupP, hi2] using ih h
      · simpa [List.filter, hid] using ih h

theorem fallback_cur_or_mem (text lang : String) (e : JsErr) :
    ∀ (l : List (String × Provider)) (cur : String),
      (fallbackLoop text lang e l cur).cur = cur ∨
        ∃ p, ((fallbackLoop text lang e l cur).cur, p) ∈ l := by
  intro l
  induction l with
  | nil => intro cur; exact Or.inl rfl
  | cons ip rest ih =>
    intro cur
    obtain ⟨id, p⟩ := ip
    by_cases hid : id = cur
    · have hfb : fallbackLoop text lang e ((id, p) :: rest) cur =
          fallbackLoop text lang e rest cur := by
        simp [fallbackLoop, hid]
      rw [hfb]
      rcases ih cur with h | ⟨q, hq⟩
      · exact Or.inl h
      · exact Or.inr ⟨q, List.mem_cons_of_mem _ hq⟩
    · by_cases hav : p.avail = true
      · rcases hres : p.res text lang with e1 | r
        · have hfb : (fallbackLoop text lang e ((id, p) :: rest) cur).cur =
              (fallbackLoop text lang e rest id).cur := by
            simp [fallbackLoop, hid, hav, hres]
          rw [hfb]
          rcases ih id with h | ⟨q, hq⟩
          · rw [h]; exact Or.inr ⟨p, List.mem_cons_self _ _⟩
          · exact Or.inr ⟨q, List.mem_cons_of_mem _ hq⟩
        · have hfb : (fallbackLoop text lang e ((id, p) :: rest) cur).cur = id := by
            simp [fallbackLoop, hid, hav, hres]
          rw [hfb]
          exact Or.inr ⟨p, List.mem_cons_self _ _⟩
      · have hfb : fallbackLoop text lang e ((id, p) :: rest) cur =
            fallbackLoop text lang e rest cur := by
          simp [fallbackLoop, hid, hav]
        rw [hfb]
        rcases ih cur with h | ⟨q, hq⟩
        · exact Or.inl h
        · exact Or.inr ⟨q, List.mem_cons_of_mem _ hq⟩

/-- The registry invariant is preserved by every single operation. -/
theorem mgrStep_inv {s : MgrState}
    (hinv : ∀ id, s.current = some id → hasP s.providers id = true)
    (op : MgrOp) :
    ∀ id, (mgrStep s op).current = some id →
      hasP (mgrStep s op).providers id = true := by
  cases op with
  | register rid p =>
    intro id hid
    simp only [mgrStep, registerProvider] at hid ⊢
    by_cases hf : optFalsy s.current = true
    · rw [if_pos hf] at hid ⊢
      simp at hid
      subst hid
      exact hasP_mapSet_self _ _ _
    · rw [if_neg hf] at hid ⊢
      exact hasP_mapSet_mono (hinv id hid) _ _
  | unregister rid =>
    intro id hid
    simp only [mgrStep, unregisterProvider] at hid ⊢
    by_cases hc : s.current = some rid
    · rw [if_pos hc] at hid; cases hid
    · rw [if_neg hc] at hid
      have hne : id ≠ rid := by rintro rfl; exact hc hid
      exact hasP_filter_ne (hinv id hid) _ hne
  | setCurrent rid =>
    intro id hid
    rcases hl : lookupP s.providers rid with _ | p
    · have hst : mgrStep s (.setCurrent rid) = s := by
        simp [mgrStep, setCurrentProvider, hl]
      rw [hst] at hid ⊢
      exact hinv id hid
    · by_cases hav : p.avail = true
      · have hst : mgrStep s (.setCurrent rid) =
            { s with current := some rid } := by
          simp [mgrStep, setCurrentProvider, hl, hav]
        rw [hst] at hid ⊢
        simp only at hid
        obtain rfl := Option.some.inj hid
        simp [hasP, hl]
      · have hst : mgrStep s (.setCurrent rid) = s := by
          simp [mgrStep, setCurrentProvider, hl, hav]
        rw [hst] at hid ⊢
        exact hinv id hid
  | doTranslate t l =>
    intro id hid
    rcases hc : s.current with _ | cid
    · have hst : mgrStep s (.doTranslate t l) = s := by
        simp [mgrStep, mgrTranslate, hc]
      rw [hst] at hid ⊢
      exact hinv id hid
    · by_cases hcid : cid = ""
      · have hst : mgrStep s (.doTranslate t l) = s := by
          simp [mgrStep, mgrTranslate, hc, hcid]
        rw [hst] at hid ⊢
        exact hinv id hid
      · rcases hl : lookupP s.providers cid with _ | p
        · have hst : mgrStep s (.doTranslate t l) = s := by
            simp [mgrStep, mgrTranslate, hc, hcid, hl]
          rw [hst] at hid ⊢
          exact hinv id hid
        · rcases hres : p.res t l with e | r
          · have hst : mgrStep s (.doTranslate t l) =
                { s with current := some (fallbackLoop t l e s.providers cid).cur } := by
              simp [mgrStep, mgrTranslate, hc, hcid, hl, hres]
            rw [hst] at hid ⊢
            simp only at hid
            obtain rfl := Option.some.inj hid
            rcases fallback_cur_or_mem t l e s.providers cid with h | ⟨q, hq⟩
            · rw [h]; simp [hasP, hl]
            · exact hasP_of_mem hq
          · have hst : mgrStep s (.doTranslate t l) = s := by
              simp [mgrStep, mgrTranslate, hc, hcid, hl, hres]
            rw [hst] at hid ⊢
            exact hinv id hid

/-- Claim C8 (confirmed). After any sequence of manager operations starting
from the freshly constructed manager, whenever the current-provider pointer is
set it is a key present in the registry; the pointer is a single optional
field, so at most one provider is current at a time by construction. -/
theorem c8_registry_invariant :
    ∀ (ops : List MgrOp) (id : String),
      (mgrRun ops).current = some id → hasP (mgrRun ops).providers id = true := by
  have hfold : ∀ (ops : List MgrOp) (s : MgrState),
      (∀ id, s.current = some id → hasP s.providers id = true) →
      ∀ id, (ops.foldl mgrStep s).current = some id →
        hasP (ops.foldl mgrStep s).providers id = true := by
    intro ops
    induction ops with
    | nil => intro s hs; exact hs
    | cons op rest ih =>
      intro s hs
      exact ih (mgrStep s op) (mgrStep_inv hs op)
  intro ops
  exact hfold ops initMgr (by intro id h; simp [initMgr] at h)

def provOk : Provider := ⟨true, fun _ _ => .ok "ok"⟩

/-- Witness for C8 at a concrete operation sequence. -/
theorem c8_registry_invariant_witness :
    hasP (mgrRun [MgrOp.register "openai" provOk,
      MgrOp.setCurrent "openai"]).providers "openai" = true :=
  c8_registry_invariant [MgrOp.register "openai" provOk,
    MgrOp.setCurrent "openai"] "openai" rfl

theorem getLast?_cons_of_ne_nil {a : α} {l : List α} (h : l ≠ []) :
    (a :: l).getLast? = l.getLast? := by
  cases l with
  | nil => exact absurd rfl h
  | cons b t => simp [List.getLast?_cons_cons]

theorem dropLast_cons_of_ne_nil {a : α} {l : List α} (h : l ≠ []) :
    (a :: l).dropLast = a :: l.dropLast := by
  cases l with
  | nil => exact absurd rfl h
  | cons b t => rfl

theorem lookupP_of_mem_nodup :
    ∀ {ps : List (String × Provider)} {id : String} {p : Provider},
      (ps.map (fun ip => ip.1)).Nodup → (id, p) ∈ ps → lookupP ps id = some p := by
  intro ps
  induction ps with
  | nil => intro id p _ h; cases h
  | cons ip t ih =>
    intro id p hnd h
    obtain ⟨i, q⟩ := ip
    rcases List.mem_cons.mp h with heq | ht
    · obtain ⟨rfl, rfl⟩ := Prod.mk.injEq _ _ _ _ ▸ heq.symm
      simp [lookupP]
    · have hi : i ≠ id := by
        rintro rfl
        have : i ∈ t.map (fun ip => ip.1) :=
          List.mem_map.mpr ⟨(i, p), ht, rfl⟩
        exact (List.nodup_cons.mp hnd).1 this
      simp only [lookupP, if_neg hi]
      exact ih (List.nodup_cons.mp hnd).2 ht

/-- Full characterisation of one run of the failover loop, relative to a
registry `ps0` in which every iterated pair can be looked up. -/
theorem fallback_props (text lang : String) (e : JsErr) :
    ∀ (l : List (String × Provider)) (cur : String)
      (ps0 : List (String × Provider)),
      (∀ ip ∈ l, lookupP ps0 ip.1 = some ip.2) →
      ((∀ id ∈ (fallbackLoop text lang e l cur).atts,
          ∃ q, lookupP ps0 id = some q ∧ q.avail = true) ∧
       List.Chain' (fun x y => x ≠ y)
         (cur :: (fallbackLoop text lang e l cur).atts) ∧
       (∀ v, (fallbackLoop text lang e l cur).r = .ok v →
          (fallbackLoop text lang e l cur).atts ≠ [] ∧
          some (fallbackLoop text lang e l cur).cur =
            (fallbackLoop text lang e l cur).atts.getLast? ∧
          (∃ id q, (fallbackLoop text lang e l cur).atts.getLast? = some id ∧
            lookupP ps0 id = some q ∧ q.res text lang = .ok v) ∧
          (∀ id ∈ (fallbackLoop text lang e l cur).atts.dropLast,
            ∃ q, lookupP ps0 id = some q ∧
              ∃ e2, q.res text lang = .error e2)) ∧
       (∀ e2, (fallbackLoop text lang e l cur).r = .error e2 → e2 = e ∧
          (∀ id ∈ (fallbackLoop text lang e l cur).atts,
            ∃ q, lookupP ps0 id = some q ∧
              ∃ e3, q.res text lang = .error e3))) := by
  intro l
  induction l with
  | nil =>
    intro cur ps0 _
    refine ⟨by simp [fallbackLoop], by simp [fallbackLoop], ?_, ?_⟩
    · intro v hv
      simp [fallbackLoop] at hv
    · intro e2 he2
      simp only [fallbackLoop] at he2 ⊢
      refine ⟨by exact (Except.error.injEq _ _ ▸ he2.symm), by simp⟩
  | cons ip rest ih =>
    intro cur ps0 hl
    obtain ⟨id, p⟩ := ip
    have hlrest : ∀ ip ∈ rest, lookupP ps0 ip.1 = some ip.2 :=
      fun ip hip => hl ip (List.mem_cons_of_mem _ hip)
    have hlid : lookupP ps0 id = some p := hl (id, p) (List.mem_cons_self _ _)
    by_cases hid : id = cur
    · have hfb : fallbackLoop text lang e ((id, p) :: rest) cur =
          fallbackLoop text lang e rest cur := by
        simp [fallbackLoop, hid]
      rw [hfb]
      exact ih cur ps0 hlrest
    · by_cases hav : p.avail = true
      · rcases hres : p.res text lang with e1 | r
        · have hfb : fallbackLoop text lang e ((id, p) :: rest) cur =
              ⟨(fallbackLoop text lang e rest id).r,
               (fallbackLoop text lang e rest id).cur,
               id :: (fallbackLoop text lang e rest id).atts⟩ := by
            simp [fallbackLoop, hid, hav, hres]
          rw [hfb]
          obtain ⟨iha, ihb, ihc, ihd⟩ := ih id ps0 hlrest
          refine ⟨?_, ?_, ?_, ?_⟩
          · intro id2 hid2
            rcases List.mem_cons.mp hid2 with rfl | hid2
            · exact ⟨p, hlid, hav⟩
            · exact iha id2 hid2
          · refine List.chain'_cons.mpr ⟨fun h => hid h.symm, ihb⟩
          · intro v hv
            obtain ⟨hne, hlast, hwit, hdrop⟩ := ihc v hv
            refine ⟨List.cons_ne_nil _ _, ?_, ?_, ?_⟩
            · rw [getLast?_cons_of_ne_nil hne]
              exact hlast
            · rw [getLast?_cons_of_ne_nil hne]
              exact hwit
            · rw [dropLast_cons_of_ne_nil hne]
              intro id2 hid2
              rcases List.mem_cons.mp hid2 with rfl | hid2
              · exact ⟨p, hlid, e1, hres⟩
              · exact hdrop id2 hid2
          · intro e2 he2
            obtain ⟨rfl, hall⟩ := ihd e2 he2
            refine ⟨rfl, ?_⟩
            intro id2 hid2
            rcases List.mem_cons.mp hid2 with rfl | hid2
            · exact ⟨p, hlid, e1, hres⟩
            · exact hall id2 hid2
        · have hfb : fallbackLoop text lang e ((id, p) :: rest) cur =
              ⟨.ok r, id, [id]⟩ := by
            simp [fallbackLoop, hid, hav, hres]
          rw [hfb]
          refine ⟨?_, ?_, ?_, ?_⟩
          · intro id2 hid2
            rcases List.mem_cons.mp hid2 with rfl | hid2
            · exact ⟨p, hlid, hav⟩
            · cases hid2
          · exact List.chain'_cons.mpr ⟨fun h => hid h.symm, by simp⟩
          · intro v hv
            have hrv : r = v := by
              simpa using hv
            refine ⟨by simp, by simp, ⟨id, p, by simp, hlid, hrv ▸ hres⟩, ?_⟩
            intro id2 hid2
            simp at hid2
          · intro e2 he2
            simp at he2
      · have hfb : fallbackLoop text lang e ((id, p) :: rest) cur =
            fallbackLoop text lang e rest cur := by
          simp [fallbackLoop, hid, hav]
        rw [hfb]
        exact ih cur ps0 hlrest

/-- Claim C1 (corrected). When the current provider's translate fails, the
manager iterates the registry in registration order, attempting each available
provider whose id differs from the one most recently attempted — the pointer
is moved to each attempted provider before its attempt, and the skip test
compares against that moving pointer, so the originally failed provider is
only guaranteed to differ from the immediately preceding attempt (it can be
re-attempted).  Every attempted id is registered and available; on success the
result comes from the last attempted provider, which is now current, and all
earlier attempts failed; when no attempt succeeds the original error is
re-raised (fallback errors never surface) and the registry itself is
unchanged. -/
theorem c1_provider_failover_amended
    (s : MgrState) (text lang : String) (cid : String) (p0 : Provider) (e : JsErr)
    (hnodup : (s.providers.map (fun ip => ip.1)).Nodup)
    (hcur : s.current = some cid) (hcid : cid ≠ "")
    (hp0 : lookupP s.providers cid = some p0)
    (hfail : p0.res text lang = .error e) :
    (∀ id ∈ (mgrTranslate s text lang).atts,
       ∃ q, lookupP s.providers id = some q ∧ q.avail = true) ∧
    List.Chain' (fun x y => x ≠ y) (cid :: (mgrTranslate s text lang).atts) ∧
    (∀ v, (mgrTranslate s text lang).r = .ok v →
       (mgrTranslate s text lang).atts ≠ [] ∧
       (mgrTranslate s text lang).st.current =
         (mgrTranslate s text lang).atts.getLast? ∧
       (∃ id q, (mgrTranslate s text lang).atts.getLast? = some id ∧
          lookupP s.providers id = some q ∧ q.res text lang = .ok v) ∧
       (∀ id ∈ (mgrTranslate s text lang).atts.dropLast,
          ∃ q, lookupP s.providers id = some q ∧
            ∃ e2, q.res text lang = .error e2)) ∧
    (∀ e2, (mgrTranslate s text lang).r = .error e2 → e2 = e ∧
       (∀ id ∈ (mgrTranslate s text lang).atts,
          ∃ q, lookupP s.providers id = some q ∧
            ∃ e3, q.res text lang = .error e3)) ∧
    (mgrTranslate s text lang).st.providers = s.providers := by
  have hst : mgrTranslate s text lang =
      ⟨(fallbackLoop text lang e s.providers cid).r,
       { s with current := some (fallbackLoop text lang e s.providers cid).cur },
       (fallbackLoop text lang e s.providers cid).atts⟩ := by
    simp [mgrTranslate, hcur, hcid, hp0, hfail]
  have hl : ∀ ip ∈ s.providers, lookupP s.providers ip.1 = some ip.2 := by
    intro ip hip
    obtain ⟨i, q⟩ := ip
    exact lookupP_of_mem_nodup hnodup hip
  obtain ⟨ha, hb, hc, hd⟩ := fallback_props text lang e s.providers cid s.providers hl
  rw [hst]
  exact ⟨ha, hb, fun v hv => by
    obtain ⟨h1, h2, h3, h4⟩ := hc v hv
    exact ⟨h1, h2, h3, h4⟩, hd, rfl⟩

def provFail (e : JsErr) : Provider := ⟨true, fun _ _ => .error e⟩

def errOpenai : JsErr := ⟨some 500, "openai failed"⟩

def errGroq : JsErr := ⟨some 500, "groq failed"⟩

def errOther : JsErr := ⟨some 500, "other failed"⟩

/-- Three registered providers, all available, all failing; `groq` (the
second) is the current one. -/
def c1CexState : MgrState :=
  ⟨[("openai", provFail errOpenai), ("groq", provFail errGroq),
    ("other", provFail errOther)], some "groq"⟩

/-- Claim C1 counterexample. The claim says the failover skips the provider
that already failed and switches the pointer only to a provider that
succeeds.  At this concrete state the failed current provider `groq` is
re-attempted during its own failover (the attempt sequence is `openai`,
`groq`, `other`), and although every provider fails, the pointer ends on
`other`; the original error is re-raised. -/
theorem c1_failover_counterexample :
    (mgrTranslate c1CexState "t" "l").atts = ["openai", "groq", "other"] ∧
    "groq" ∈ (mgrTranslate c1CexState "t" "l").atts ∧
    (mgrTranslate c1CexState "t" "l").st.current = some "other" ∧
    (mgrTranslate c1CexState "t" "l").r = .error errGroq := by
  refine ⟨by decide, by decide, by decide, by rfl⟩

/-- The spec's two-provider failover scenario: the current provider always
fails, the other always succeeds. -/
def provOk2 : Provider := ⟨true, fun _ _ => .ok "bonjour"⟩

def c1WitnessState : MgrState :=
  ⟨[("openai", provFail errOpenai), ("groq", provOk2)], some "openai"⟩

/-- Witness for C1: at the two-provider scenario the amended theorem yields
the second provider's result and reports it as current. -/
theorem c1_provider_failover_witness :
    (mgrTranslate c1WitnessState "hello" "French").r = .ok "bonjour" ∧
    (mgrTranslate c1WitnessState "hello" "French").st.current = some "groq" ∧
    (∃ id q,
      (mgrTranslate c1WitnessState "hello" "French").atts.getLast? = some id ∧
      lookupP c1WitnessState.providers id = some q ∧
      q.res "hello" "French" = .ok "bonjour") := by
  have h := c1_provider_failover_amended c1WitnessState "hello" "French"
    "openai" (provFail errOpenai) errOpenai (by decide) rfl (by decide) rfl rfl
  have hr : (mgrTranslate c1WitnessState "hello" "French").r = .ok "bonjour" := by
    rfl
  have hc := h.2.2.1 "bonjour" hr
  refine ⟨hr, ?_, hc.2.2.1⟩
  rw [hc.2.1]
  decide

/-!
## Locale validation and language mapping

Models `isValidTranslationForLocale` and `getLanguageFromLocale`.  The
case-insensitive character classes are modelled by folding through
`foldLowerJs`, which covers the Latin repertoire the classes draw from
(ASCII, Latin-1 supplement, OE ligature, Y with diaeresis); characters
outside that repertoire are left unchanged, and their lowercase forms are
not members of the classes either, so membership agrees with the JS test.
-/

def hasArabic (t : List Char) : Bool :=
  t.any (fun c => 0x600 ≤ c.toNat && c.toNat ≤ 0x6FF)

def hasCJK (t : List Char) : Bool :=
  t.any (fun c => 0x4E00 ≤ c.toNat && c.toNat ≤ 0x9FFF)

def foldLowerJs (c : Char) : Char :=
  let n := c.toNat
  if 65 ≤ n && n ≤ 90 then Char.ofNat (n + 32)
  else if (0xC0 ≤ n && n ≤ 0xD6) || (0xD8 ≤ n && n ≤ 0xDE) then Char.ofNat (n + 32)
  else if n = 0x152 then Char.ofNat 0x153
  else if n = 0x178 then Char.ofNat 0xFF
  else c

/-- Membership in the French class `[a-zàâäéèêëîïôöùûüÿçœæ\s''"-]`, folded. -/
def frChar (c : Char) : Bool :=
  let n := (foldLowerJs c).toNat
  (97 ≤ n && n ≤ 122) || n = 0xE0 || n = 0xE2 || n = 0xE4 || n = 0xE9 ||
  n = 0xE8 || n = 0xEA || n = 0xEB || n = 0xEE || n = 0xEF || n = 0xF4 ||
  n = 0xF6 || n = 0xF9 || n = 0xFB || n = 0xFC || n = 0xFF || n = 0xE7 ||
  n = 0x153 || n = 0xE6 || isWsJs (foldLowerJs c) || n = 39 || n = 34 || n = 45

/-- Membership in the Portuguese class `[a-záàâãéèêíìóòôõúùüçñ\s''"-]`, folded. -/
def ptChar (c : Char) : Bool :=
  let n := (foldLowerJs c).toNat
  (97 ≤ n && n ≤ 122) || n = 0xE1 || n = 0xE0 || n = 0xE2 || n = 0xE3 ||
  n = 0xE9 || n = 0xE8 || n = 0xEA || n = 0xED || n = 0xEC || n = 0xF3 ||
  n = 0xF2 || n = 0xF4 || n = 0xF5 || n = 0xFA || n = 0xF9 || n = 0xFC ||
  n = 0xE7 || n = 0xF1 || isWsJs (foldLowerJs c) || n = 39 || n = 34 || n = 45

/-- `locale.split("_")[0]`. -/
def localeLang (locale : List Char) : List Char :=
  locale.takeWhile (fun c => c ≠ '_')

/-- `translation.slice(0, 2).toLowerCase()` (Latin repertoire case map). -/
def lowerTwo (t : List Char) : List Char :=
  (t.take 2).map foldLowerJs

/-- `isValidTranslationForLocale` from `src/src/utils/translation.ts`. -/
def isValidTranslationForLocale (t locale : List Char) : Bool :=
  if trimJs t = [] then false
  else
    let lang := localeLang locale
    if lang = "fr".toList then !t.isEmpty && t.all frChar
    else if lang = "ar".toList then hasArabic t
    else if lang = "zh".toList then hasCJK t
    else if lang = "ur".toList then hasArabic t
    else if lang = "pt".toList then !t.isEmpty && t.all ptChar
    else !(hasArabic t || hasCJK t) || litAt (lowerTwo t) locale

/-- `getLanguageFromLocale`. -/
def getLanguageFromLocale (locale : List Char) : List Char :=
  if locale = "ur_PK".toList then "Urdu".toList
  else if locale = "id_ID".toList then "Indonesian (Bahasa Indonesia)".toList
  else if locale = "en_US".toList then "English".toList
  else if locale = "en".toList then "English".toList
  else if locale = "ar_SA".toList then "Arabic".toList
  else if locale = "zh_CN".toList then "Chinese (Simplified)".toList
  else if locale = "hi_IN".toList then "Hindi".toList
  else if locale = "pt_BR".toList then "Portuguese (Brazil)".toList
  else
    let lang := localeLang locale
    if lang = "ur".toList then "Urdu".toList
    else if lang = "id".toList then "Indonesian (Bahasa Indonesia)".toList
    else if lang = "en".toList then "English".toList
    else if lang = "ar".toList then "Arabic".toList
    else if lang = "zh".toList then "Chinese".toList
    else if lang = "hi".toList then "Hindi".toList
    else if lang = "pt".toList then "Portuguese".toList
    else locale

/-!
## The cache, the English fallback table and `translateText`

JS objects used as string-keyed dictionaries are modelled as association
lists (set overwrites in place); `x[k] || d` truthiness means an absent key
or the empty string falls through to `d`.
-/

def lookupA : List (List Char × List Char) → List Char → Option (List Char)
  | [], _ => none
  | (k, v) :: t, key => if k = key then some v else lookupA t key

def setA : List (List Char × List Char) → List Char → List Char →
    List (List Char × List Char)
  | [], key, v => [(key, v)]
  | (k, w) :: t, key, v => if k = key then (k, v) :: t else (k, w) :: setA t key v

def lookupTruthyA (m : List (List Char × List Char)) (key : List Char) :
    Option (List Char) :=
  match lookupA m key with
  | some v => if v = [] then none else some v
  | none => none

/-- `englishTranslations[key] || key`. -/
def englishD (m : List (List Char × List Char)) (key : List Char) : List Char :=
  match lookupTruthyA m key with
  | some v => v
  | none => key

def cacheKeyOf (text locale : List Char) : List Char := text ++ ':' :: locale

/-- The outcome of the n-th `manager.translate(text, targetLanguage)` call. -/
def Oracle := Nat → List Char → Except JsErr (List Char)

structure TransSt where
  cache : List (List Char × List Char)
  callIdx : Nat
deriving DecidableEq

inductive AEv where
  | tAttempt (key : List Char)
  | noMap
  | updateError
  | entryAdd (k v : List Char)
deriving DecidableEq

/-- `translateText` from `src/src/utils/translation.ts` (lines 544-590),
fuelled: the 429 branch re-invokes the whole function recursively, so a run
that exceeds the fuel returns `none` (the JS runaway recursion / divergence).
An `AEv.tAttempt` event is emitted for every `manager.translate` call. -/
def translateText (english : List (List Char × List Char)) (oracle : Oracle) :
    Nat → TransSt → List Char → List Char →
    Option (Except JsErr (List Char) × TransSt × List AEv)
  | 0, _, _, _ => none
  | fuel + 1, st, text, locale =>
    match lookupTruthyA st.cache (cacheKeyOf text locale) with
    | some v => some (.ok v, st, [])
    | none =>
      let st1 : TransSt := ⟨st.cache, st.callIdx + 1⟩
      match oracle st.callIdx (getLanguageFromLocale locale) with
      | .ok tr =>
        if trimJs tr = [] then
          some (.error ⟨none, "Empty translation received"⟩, st1, [.tAttempt text])
        else if isValidTranslationForLocale tr locale then
          some (.ok tr,
            ⟨setA st1.cache (cacheKeyOf text locale) tr, st1.callIdx⟩,
            [.tAttempt text])
        else some (.ok (englishD english text), st1, [.tAttempt text])
      | .error e =>
        if e.statusCode = some 400 then some (.ok text, st1, [.tAttempt text])
        else if e.statusCode = some 429 then
          match translateText english oracle fuel st1 text locale with
          | none => none
          | some (r, st2, evs) => some (r, st2, .tAttempt text :: evs)
        else some (.error e, st1, [.tAttempt text])

/-- A backend that fails every call with HTTP 429. -/
def always429 : Oracle := fun _ _ => .error ⟨some 429, "rate limited"⟩

/-- Under a permanently rate-limited backend the 429 recursion of
`translateText` consumes any amount of fuel without producing a result. -/
theorem translateText_always429 (english : List (List Char × List Char))
    (text locale : List Char) :
    ∀ (fuel n : Nat),
      translateText english always429 fuel ⟨[], n⟩ text locale = none := by
  intro fuel
  induction fuel with
  | zero => intro n; rfl
  | succ fuel ih =>
    intro n
    simp only [translateText, lookupTruthyA, lookupA, always429]
    rw [ih (n + 1)]
    simp

/-- Claim C6 (code_bug). The spec (and the code's own comment `Retry once
after delay`) say a 429 failure is retried exactly once and then falls back,
so `translateText` terminates on every input.  The code instead re-invokes
`translateText` recursively on every 429 with no attempt counter: under a
backend that returns 429 on every request, no amount of fuel suffices — the
recursion never reaches a fallback. -/
theorem c6_rate_limit_unbounded_recursion :
    ∀ (fuel n : Nat),
      translateText [] always429 fuel ⟨[], n⟩ "hello".toList "fr_FR".toList =
        none :=
  fun fuel n => translateText_always429 [] "hello".toList "fr_FR".toList fuel n

/-- The per-key block of `addKeysToTranslationFile` (lines 370-413): call
`translateText`; accept a truthy, locale-valid result; otherwise fall back to
the English table or the key; a thrown 429 is retried once after a delay and
then falls back; any other thrown error falls back immediately. -/
def perKeyTranslationValue (english : List (List Char × List Char))
    (oracle : Oracle) (fuel : Nat) (st : TransSt) (key locale : List Char) :
    Option (List Char × TransSt × List AEv) :=
  match translateText english oracle fuel st key locale with
  | none => none
  | some (.ok tr, st1, evs) =>
    some (if !tr.isEmpty && isValidTranslationForLocale tr locale then tr
          else englishD english key, st1, evs)
  | some (.error e, st1, evs) =>
    if e.statusCode = some 429 then
      match translateText english oracle fuel st1 key locale with
      | none => none
      | some (.ok tr2, st2, evs2) =>
        some (if !tr2.isEmpty && isValidTranslationForLocale tr2 locale then tr2
              else englishD english key, st2, evs ++ evs2)
      | some (.error _, st2, evs2) =>
        some (englishD english key, st2, evs ++ evs2)
    else some (englishD english key, st1, evs)

/-- `translations[key] || key` at the entry-push site (line 418). -/
def entryValueOf (v key : List Char) : List Char :=
  if v = [] then key else v

theorem entryValueOf_englishD (m : List (List Char × List Char))
    (key : List Char) : entryValueOf (englishD m key) key = englishD m key := by
  have h : englishD m key = key ∨ englishD m key ≠ [] := by
    unfold englishD lookupTruthyA
    rcases lookupA m key with _ | w
    · exact Or.inl rfl
    · by_cases hw : w = []
      · simp [hw]
      · simp only [hw, if_neg]
        simp [hw]
  rcases h with h | h
  · rw [h]
    unfold entryValueOf
    split <;> rfl
  · unfold entryValueOf
    simp [h]

/-- Claim C9 (confirmed). For a locale whose language code is `ar`, a provider
result with no Arabic-script code points is rejected by the validation, and
the value recorded for the key is the English-fallback-table value (or the
key itself when no fallback entry exists): `translateText` substitutes the
English fallback after its own validity check, and the per-key block keeps
that value (checking it again changes nothing), so the pushed entry value is
`englishD english key` and the state advances by exactly the one backend
call. -/
theorem c9_arabic_validation_fallback
    (english : List (List Char × List Char)) (oracle : Oracle) (st : TransSt)
    (key locale t : List Char) (fuel : Nat)
    (hlang : localeLang locale = "ar".toList)
    (hmiss : lookupTruthyA st.cache (cacheKeyOf key locale) = none)
    (horacle : oracle st.callIdx (getLanguageFromLocale locale) = .ok t)
    (hnoarab : hasArabic t = false) :
    isValidTranslationForLocale t locale = false ∧
    perKeyTranslationValue english oracle (fuel + 1) st key locale =
      some (englishD english key, ⟨st.cache, st.callIdx + 1⟩,
        [AEv.tAttempt key]) ∧
    entryValueOf (englishD english key) key = englishD english key := by
  have hfrne : localeLang locale ≠ "fr".toList := by
    rw [hlang]; decide
  have hvalid : isValidTranslationForLocale t locale = false := by
    unfold isValidTranslationForLocale
    by_cases htr : trimJs t = []
    · simp [htr]
    · simp only [htr, if_neg, hlang]
      simp [hnoarab]
  refine ⟨hvalid, ?_, entryValueOf_englishD english key⟩
  have htt : translateText english oracle (fuel + 1) st key locale =
      (if trimJs t = [] then
        some (.error ⟨none, "Empty translation received"⟩,
          ⟨st.cache, st.callIdx + 1⟩, [AEv.tAttempt key])
      else
        some (.ok (englishD english key),
          ⟨st.cache, st.callIdx + 1⟩, [AEv.tAttempt key])) := by
    by_cases htr : trimJs t = []
    · simp [translateText, hmiss, horacle, htr]
    · simp [translateText, hmiss, horacle, htr, hvalid]
  by_cases htr : trimJs t = []
  · rw [if_pos htr] at htt
    simp [perKeyTranslationValue, htt]
  · rw [if_neg htr] at htt
    rcases Bool.eq_false_or_eq_true (!(englishD english key).isEmpty &&
        isValidTranslationForLocale (englishD english key) locale) with h | h
    · simp [perKeyTranslationValue, htt, h]
    · simp [perKeyTranslationValue, htt, h]

/-- Witness for C9: Arabic locale, Latin-only provider result, fallback entry
present. -/
theorem c9_arabic_validation_fallback_witness :
    isValidTranslationForLocale "hi".toList "ar_SA".toList = false ∧
    perKeyTranslationValue [(("hello".toList : List Char), ("x".toList : List Char))]
      (fun _ _ => .ok "hi".toList) 1 ⟨[], 0⟩ "hello".toList "ar_SA".toList =
      some ("x".toList, ⟨[], 1⟩, [AEv.tAttempt "hello".toList]) ∧
    entryValueOf (englishD [(("hello".toList : List Char), ("x".toList : List Char))]
      "hello".toList) "hello".toList =
      englishD [(("hello".toList : List Char), ("x".toList : List Char))]
        "hello".toList := by
  have h := c9_arabic_validation_fallback
    [(("hello".toList : List Char), ("x".toList : List Char))]
    (fun _ _ => .ok "hi".toList) ⟨[], 0⟩ "hello".toList "ar_SA".toList
    "hi".toList 0 (by decide) (by decide) rfl (by decide)
  refine ⟨h.1, ?_, h.2.2⟩
  have h2 := h.2.1
  rw [h2]
  rfl

/-!
## `addKeysToTranslationFile`

The translation branch (batch size 2, pacing delays elided as pure waiting)
computes one value per new key in order via `perKeyTranslationValue`; the
untranslated branch records `english[key] = key` and uses the key as value.
The whole body is wrapped in the source's try/catch: a thrown body error is
converted to an error message event and a return of 0.
-/

structure AddOut where
  added : Nat
  wrote : Option (List Char)
  evs : List AEv
  english : List (List Char × List Char)
  tst : TransSt

/-- The per-key loop of the translation branch over the new keys, in order. -/
def transLoop (oracle : Oracle) (locale : List Char) (fuel : Nat) :
    List (List Char) → List (List Char × List Char) → TransSt →
    Option (List (List Char × List Char) × TransSt × List AEv)
  | [], _, st => some ([], st, [])
  | k :: rest, english, st =>
    match perKeyTranslationValue english oracle fuel st k locale with
    | none => none
    | some (v, st1, evs1) =>
      match transLoop oracle locale fuel rest english st1 with
      | none => none
      | some (pairs, st2, evs2) =>
        some ((k, entryValueOf v k) :: pairs, st2, evs1 ++ evs2)

/-- The untranslated branch: `english[key] = key`, entry value is the key. -/
def ntLoop : List (List Char) → List (List Char × List Char) →
    List (List Char × List Char) × List (List Char × List Char) × List AEv
  | [], english => ([], english, [])
  | k :: rest, english =>
    let r := ntLoop rest (setA english k k)
    ((k, k) :: r.1, r.2.1, .entryAdd k k :: r.2.2)

/-- The body of `addKeysToTranslationFile` (inside the try). -/
def addKeysBody (fuel : Nat) (oracle : Oracle) (readRes : Option (List Char))
    (locale : List Char) (keys : List (List Char)) (useTranslation : Bool)
    (english : List (List Char × List Char)) (tst : TransSt) :
    Option (Except JsErr AddOut) :=
  match readRes with
  | none => some (.error ⟨none, "read failed"⟩)
  | some content =>
    let existing := extractExistingKeys content
    match findMap content with
    | none => some (.ok ⟨0, none, [.noMap], english, tst⟩)
    | some _ =>
      let nk := keys.filter (fun k => ¬ k ∈ existing)
      if nk = [] then some (.ok ⟨0, none, [], english, tst⟩)
      else if useTranslation && !(locale = "en_US".toList) &&
          !(locale = "en".toList) then
        match transLoop oracle locale fuel nk english tst with
        | none => none
        | some (pairs, st2, evs) =>
          some (.ok ⟨nk.length, mergeNewEntries content pairs, evs, english, st2⟩)
      else
        let r := ntLoop nk english
        some (.ok ⟨nk.length, mergeNewEntries content r.1, r.2.2, r.2.1, tst⟩)

/-- `addKeysToTranslationFile` with its surrounding try/catch: a thrown body
error becomes a shown error message (event) and a return value of 0. -/
def addKeysToTranslationFile (fuel : Nat) (oracle : Oracle)
    (readRes : Option (List Char)) (locale : List Char)
    (keys : List (List Char)) (useTranslation : Bool)
    (english : List (List Char × List Char)) (tst : TransSt) :
    Option (Except JsErr AddOut) :=
  match addKeysBody fuel oracle readRes locale keys useTranslation english tst with
  | none => none
  | some (.error _) => some (.ok ⟨0, none, [.updateError], english, tst⟩)
  | some (.ok o) => some (.ok o)

theorem ntLoop_spec (ks : List (List Char)) :
    ∀ english, (ntLoop ks english).1 = ks.map (fun k => (k, k)) ∧
      (ntLoop ks english).2.2 = ks.map (fun k => AEv.entryAdd k k) := by
  induction ks with
  | nil => intro english; exact ⟨rfl, rfl⟩
  | cons k rest ih =>
    intro english
    obtain ⟨h1, h2⟩ := ih (setA english k k)
    simp [ntLoop, h1, h2]

/-- With `useTranslation = false` the result agrees with the pure merge
`mergeNT` (same count, same written content). -/
theorem addKeysNT_agrees_mergeNT (fuel : Nat) (oracle : Oracle)
    (content : List Char) (locale : List Char) (keys : List (List Char))
    (english : List (List Char × List Char)) (tst : TransSt) :
    ∃ o : AddOut,
      addKeysToTranslationFile fuel oracle (some content) locale keys false
        english tst = some (.ok o) ∧
      o.added = (mergeNT content keys).1 ∧ o.wrote = (mergeNT content keys).2 := by
  unfold addKeysToTranslationFile addKeysBody mergeNT newKeysOf
  dsimp only
  rcases hfm : findMap content with _ | mm
  · exact ⟨⟨0, none, [.noMap], english, tst⟩, rfl, rfl, rfl⟩
  · by_cases hnk : keys.filter (fun k => ¬ k ∈ extractExistingKeys content) = []
    · rw [if_pos hnk]
      refine ⟨⟨0, none, [], english, tst⟩, rfl, ?_, ?_⟩
      · dsimp only
        rw [if_pos hnk]
      · dsimp only
        rw [if_pos hnk]
    · rw [if_neg hnk]
      simp only [Bool.false_and, Bool.false_eq_true, if_false]
      refine ⟨_, rfl, ?_, ?_⟩
      · dsimp only
        rw [if_neg hnk]
      · dsimp only
        rw [if_neg hnk]
        dsimp only
        rw [(ntLoop_spec _ english).1]

/-!
## Orchestration (`addKeysWithTranslation`, `addKeysWithoutTranslation`)

The host-editor progress UI is modelled only through its control effects: the
per-iteration `getCurrentProviderName()` call is represented by the `mgrOk`
flag (when false the first loop iteration throws and the outer catch shows
the failure dialog), and message boxes are events.
-/

inductive Ev where
  | tCall (file key : List Char)
  | fwrite (file content : List Char)
  | noMapE (file : List Char)
  | updErrE (file : List Char)
  | entryAddE (file k v : List Char)
  | engCapture (pairs : List (List Char × List Char))
  | provSwitch
  | dialog
deriving DecidableEq

def tagEvs (f : List Char) (l : List AEv) : List Ev :=
  l.map fun e =>
    match e with
    | .tAttempt k => .tCall f k
    | .noMap => .noMapE f
    | .updateError => .updErrE f
    | .entryAdd k v => .entryAddE f k v

/-- `path.basename(file, ".dart")`. -/
def basenameNoDart (p : List Char) : List Char :=
  let b := (p.reverse.takeWhile (fun c => c ≠ '/')).reverse
  if 5 ≤ b.length && decide (b.drop (b.length - 5) = ".dart".toList) then
    b.take (b.length - 5)
  else b

/-- The base-locale test of the orchestrator (basename `en_US` or `en`). -/
def isBaseFile (p : List Char) : Bool :=
  basenameNoDart p = "en_US".toList || basenameNoDart p = "en".toList

structure OrchSt where
  fs : List (List Char × List Char)
  english : List (List Char × List Char)
  tst : TransSt
deriving DecidableEq

/-- Process one file: read it, run `addKeysToTranslationFile`, apply the
write; a thrown error (never produced, see C10) would hit the orchestrator's
per-file catch, incrementing the error count and switching provider. -/
def procFile (fuel : Nat) (oracle : Oracle) (useTr : Bool) (os : OrchSt)
    (file : List Char) (keys : List (List Char)) :
    Option (List Ev × OrchSt × Nat × Nat) :=
  match addKeysToTranslationFile fuel oracle (lookupA os.fs file)
      (basenameNoDart file) keys useTr os.english os.tst with
  | none => none
  | some (.ok o) =>
    some (tagEvs file o.evs ++
        (match o.wrote with
         | some c => [Ev.fwrite file c]
         | none => []),
      ⟨(match o.wrote with
        | some c => setA os.fs file c
        | none => os.fs), o.english, o.tst⟩, o.added, 0)
  | some (.error _) => some ([Ev.provSwitch], os, 0, 1)

def nullOracle : Oracle := fun _ _ => .error ⟨none, "unused"⟩

/-- `addKeysWithoutTranslation`: process every file with translation off,
summing the added counts.  The `none` branch is unreachable (untranslated
processing consumes no fuel) and continues unchanged so that the loop
composes. -/
def addKeysWithoutTranslation :
    List (List Char) → List (List Char) → OrchSt → List Ev × OrchSt × Nat
  | [], _, os => ([], os, 0)
  | f :: rest, keys, os =>
    match procFile 0 nullOracle false os f keys with
    | none => addKeysWithoutTranslation rest keys os
    | some (evs, os1, a, _) =>
      let r := addKeysWithoutTranslation rest keys os1
      (evs ++ r.1, r.2.1, a + r.2.2)

/-- The translated per-file loop of `addKeysWithTranslation` (the body of
`withProgress`). Returns the trace and, unless a translation run diverged,
the final state with added and error counts. -/
def orchLoop (fuel : Nat) (oracle : Oracle) (keys : List (List Char)) :
    List (List Char) → OrchSt → List Ev × Option (OrchSt × Nat × Nat)
  | [], os => ([], some (os, 0, 0))
  | f :: rest, os =>
    match procFile fuel oracle true os f keys with
    | none => ([], none)
    | some (evs, os1, a, e) =>
      match orchLoop fuel oracle keys rest os1 with
      | (evs2, none) => (evs ++ evs2, none)
      | (evs2, some (os2, a2, e2)) => (evs ++ evs2, some (os2, a + a2, e + e2))

/-- The base-locale phase of `addKeysWithTranslation`: process the base file
with translation disabled, re-read it and capture its key/value pairs into
the English table.  Returns the phase's trace and, when the invocation
survives (the re-read is outside any try and its failure rejects the whole
call), the updated state and added count. -/
def enPhase (fuel : Nat) (oracle : Oracle) (os : OrchSt) (enf : List Char)
    (keys : List (List Char)) : List Ev × Option (OrchSt × Nat) :=
  match addKeysToTranslationFile fuel oracle (lookupA os.fs enf)
      (basenameNoDart enf) keys false os.english os.tst with
  | none => ([], none)
  | some (.error _) => ([], none)
  | some (.ok o) =>
    let evs1 := tagEvs enf o.evs ++
      (match o.wrote with
       | some c => [Ev.fwrite enf c]
       | none => [])
    let fs1 := match o.wrote with
      | some c => setA os.fs enf c
      | none => os.fs
    match lookupA fs1 enf with
    | none => (evs1, none)
    | some c2 =>
      let pairs := scanKV true c2
      (evs1 ++ [Ev.engCapture pairs],
       some (⟨fs1, pairs.foldl (fun m kv => setA m kv.1 kv.2) o.english,
         o.tst⟩, o.added))

/-- `addKeysWithTranslation`: process the base-locale file first with
translation disabled, capture its key/value pairs into the English table,
remove it from the work list, then run the translated loop. -/
def addKeysWithTranslation (fuel : Nat) (oracle : Oracle)
    (files : List (List Char)) (keys : List (List Char)) (os : OrchSt)
    (mgrOk : Bool) : List Ev × Option (OrchSt × Nat × Nat) :=
  match files.find? isBaseFile with
  | some enf =>
    match enPhase fuel oracle os enf keys with
    | (evs, none) => (evs, none)
    | (evs, some (os2, a1)) =>
      let remaining := files.filter (fun f => f ≠ enf)
      if mgrOk then
        let r := orchLoop fuel oracle keys remaining os2
        (evs ++ r.1, r.2.map (fun x => (x.1, a1 + x.2.1, x.2.2)))
      else
        (evs ++ (if remaining = [] then [] else [Ev.dialog]),
          some (os2, a1, 0))
  | none =>
    if mgrOk then orchLoop fuel oracle keys files os
    else ((if files = [] then [] else [Ev.dialog]), some (os, 0, 0))

theorem addKeys_noMap (fuel : Nat) (oracle : Oracle) (locale : List Char)
    (keys : List (List Char)) (useTr : Bool)
    (english : List (List Char × List Char)) (tst : TransSt)
    (content : List Char) (h : findMap content = none) :
    addKeysToTranslationFile fuel oracle (some content) locale keys useTr
      english tst = some (.ok ⟨0, none, [AEv.noMap], english, tst⟩) := by
  unfold addKeysToTranslationFile addKeysBody
  dsimp only
  rw [h]

theorem batch_append (keys : List (List Char)) :
    ∀ (l1 l2 : List (List Char)) (os : OrchSt),
      addKeysWithoutTranslation (l1 ++ l2) keys os =
        ((addKeysWithoutTranslation l1 keys os).1 ++
          (addKeysWithoutTranslation l2 keys
            (addKeysWithoutTranslation l1 keys os).2.1).1,
         (addKeysWithoutTranslation l2 keys
           (addKeysWithoutTranslation l1 keys os).2.1).2.1,
         (addKeysWithoutTranslation l1 keys os).2.2 +
           (addKeysWithoutTranslation l2 keys
             (addKeysWithoutTranslation l1 keys os).2.1).2.2) := by
  intro l1
  induction l1 with
  | nil => intro l2 os; simp [addKeysWithoutTranslation]
  | cons f rest ih =>
    intro l2 os
    simp only [List.cons_append, addKeysWithoutTranslation]
    cases hp : procFile 0 nullOracle false os f keys with
    | none => exact ih l2 os
    | some r =>
      obtain ⟨evs, os1, a, e⟩ := r
      dsimp only
      simp only [List.append_eq]
      rw [ih l2 os1]
      simp [List.append_assoc, Nat.add_assoc]

theorem procFile_noMap (os : OrchSt) (bad : List Char)
    (keys : List (List Char)) (c : List Char)
    (hread : lookupA os.fs bad = some c) (hmap : findMap c = none) :
    procFile 0 nullOracle false os bad keys =
      some ([Ev.noMapE bad], os, 0, 0) := by
  unfold procFile
  rw [hread, addKeys_noMap 0 nullOracle (basenameNoDart bad) keys false
    os.english os.tst c hmap]
  rfl

/-- Claim C7 (confirmed). When the map construct is absent from a file's
content, `addKeysToTranslationFile` reports the failure for that file (the
error message event naming it), performs no write, leaves the English table
and translation state untouched, and returns 0; consequently a batch run over
a file list containing such a file emits the per-file error event in place
and processes the files before and after it exactly as it would otherwise,
with the total count unchanged. -/
theorem c7_missing_map_isolated :
    (∀ (fuel : Nat) (oracle : Oracle) (locale : List Char)
       (keys : List (List Char)) (useTr : Bool)
       (english : List (List Char × List Char)) (tst : TransSt)
       (content : List Char), findMap content = none →
       addKeysToTranslationFile fuel oracle (some content) locale keys useTr
         english tst = some (.ok ⟨0, none, [AEv.noMap], english, tst⟩)) ∧
    (∀ (files1 files2 : List (List Char)) (bad : List Char)
       (keys : List (List Char)) (os : OrchSt) (c : List Char),
       lookupA (addKeysWithoutTranslation files1 keys os).2.1.fs bad = some c →
       findMap c = none →
       addKeysWithoutTranslation (files1 ++ bad :: files2) keys os =
         ((addKeysWithoutTranslation files1 keys os).1 ++ Ev.noMapE bad ::
           (addKeysWithoutTranslation files2 keys
             (addKeysWithoutTranslation files1 keys os).2.1).1,
          (addKeysWithoutTranslation files2 keys
            (addKeysWithoutTranslation files1 keys os).2.1).2.1,
          (addKeysWithoutTranslation files1 keys os).2.2 +
            (addKeysWithoutTranslation files2 keys
              (addKeysWithoutTranslation files1 keys os).2.1).2.2)) := by
  refine ⟨fun fuel oracle locale keys useTr english tst content h =>
    addKeys_noMap fuel oracle locale keys useTr english tst content h, ?_⟩
  intro files1 files2 bad keys os c hread hmap
  rw [batch_append keys files1 (bad :: files2) os]
  have hstep : addKeysWithoutTranslation (bad :: files2) keys
      (addKeysWithoutTranslation files1 keys os).2.1 =
      (Ev.noMapE bad ::
        (addKeysWithoutTranslation files2 keys
          (addKeysWithoutTranslation files1 keys os).2.1).1,
       (addKeysWithoutTranslation files2 keys
         (addKeysWithoutTranslation files1 keys os).2.1).2.1,
       (addKeysWithoutTranslation files2 keys
         (addKeysWithoutTranslation files1 keys os).2.1).2.2) := by
    simp only [addKeysWithoutTranslation,
      procFile_noMap (addKeysWithoutTranslation files1 keys os).2.1 bad keys c
        hread hmap]
    simp
  rw [hstep]

def c7Fs : List (List Char × List Char) :=
  [("bad.dart".toList, "nothing".toList), ("a.dart".toList, emptyMapFile)]

def c7Os : OrchSt := ⟨c7Fs, [], ⟨[], 0⟩⟩

/-- Witness for C7: a file without a map construct in a two-file batch. -/
theorem c7_missing_map_isolated_witness :
    addKeysWithoutTranslation ([] ++ "bad.dart".toList :: ["a.dart".toList])
      [helloKey] c7Os =
      ((addKeysWithoutTranslation [] [helloKey] c7Os).1 ++ Ev.noMapE "bad.dart".toList ::
        (addKeysWithoutTranslation ["a.dart".toList] [helloKey]
          (addKeysWithoutTranslation [] [helloKey] c7Os).2.1).1,
       (addKeysWithoutTranslation ["a.dart".toList] [helloKey]
         (addKeysWithoutTranslation [] [helloKey] c7Os).2.1).2.1,
       (addKeysWithoutTranslation [] [helloKey] c7Os).2.2 +
         (addKeysWithoutTranslation ["a.dart".toList] [helloKey]
           (addKeysWithoutTranslation [] [helloKey] c7Os).2.1).2.2) :=
  c7_missing_map_isolated.2 [] ["a.dart".toList] "bad.dart".toList [helloKey]
    c7Os "nothing".toList rfl (by decide)

theorem addKeys_not_error (fuel : Nat) (oracle : Oracle)
    (readRes : Option (List Char)) (locale : List Char)
    (keys : List (List Char)) (useTr : Bool)
    (english : List (List Char × List Char)) (tst : TransSt) (e : JsErr) :
    addKeysToTranslationFile fuel oracle readRes locale keys useTr english tst ≠
      some (.error e) := by
  unfold addKeysToTranslationFile
  rcases addKeysBody fuel oracle readRes locale keys useTr english tst with _ | r
  · simp
  · rcases r with e2 | o <;> simp

theorem addKeysNT_evs (fuel : Nat) (oracle : Oracle)
    (readRes : Option (List Char)) (locale : List Char)
    (keys : List (List Char)) (english : List (List Char × List Char))
    (tst : TransSt) (o : AddOut)
    (h : addKeysToTranslationFile fuel oracle readRes locale keys false english
      tst = some (.ok o)) :
    ∀ ev ∈ o.evs, ev = AEv.noMap ∨ ev = AEv.updateError ∨
      ∃ k, ev = AEv.entryAdd k k := by
  unfold addKeysToTranslationFile addKeysBody at h
  rcases readRes with _ | content
  · simp only [Option.some.injEq, Except.ok.injEq] at h
    subst h
    intro ev hev
    simp at hev
    subst hev
    exact Or.inr (Or.inl rfl)
  · dsimp only at h
    rcases hfm : findMap content with _ | mm
    · rw [hfm] at h
      simp only [Option.some.injEq, Except.ok.injEq] at h
      subst h
      intro ev hev
      simp at hev
      subst hev
      exact Or.inl rfl
    · rw [hfm] at h
      by_cases hnk : keys.filter
          (fun k => ¬ k ∈ extractExistingKeys content) = []
      · rw [if_pos hnk] at h
        simp only [Option.some.injEq, Except.ok.injEq] at h
        subst h
        intro ev hev
        simp at hev
      · rw [if_neg hnk] at h
        simp only [Bool.false_and, Bool.false_eq_true, if_false] at h
        simp only [Option.some.injEq, Except.ok.injEq] at h
        subst h
        intro ev hev
        dsimp only at hev
        rw [(ntLoop_spec _ english).2] at hev
        rcases List.mem_map.mp hev with ⟨k, _, rfl⟩
        exact Or.inr (Or.inr ⟨k, rfl⟩)

theorem tagEvs_shape (g : List Char) (l : List AEv) :
    ∀ e ∈ tagEvs g l,
      (∃ k, e = Ev.tCall g k) ∨ e = Ev.noMapE g ∨ e = Ev.updErrE g ∨
        ∃ k v, e = Ev.entryAddE g k v := by
  intro e he
  rcases List.mem_map.mp he with ⟨aev, _, rfl⟩
  cases aev with
  | tAttempt k => exact Or.inl ⟨k, rfl⟩
  | noMap => exact Or.inr (Or.inl rfl)
  | updateError => exact Or.inr (Or.inr (Or.inl rfl))
  | entryAdd k v => exact Or.inr (Or.inr (Or.inr ⟨k, v, rfl⟩))

theorem tagEvs_tCall {g : List Char} {l : List AEv} {f k : List Char}
    (h : Ev.tCall f k ∈ tagEvs g l) : f = g := by
  rcases tagEvs_shape g l _ h with ⟨k2, he⟩ | he | he | ⟨k2, v2, he⟩
  · injection he with h1 h2
  · cases he
  · cases he
  · cases he

theorem procFile_shape (fuel : Nat) (oracle : Oracle) (useTr : Bool)
    (os : OrchSt) (f : List Char) (keys : List (List Char))
    (evs : List Ev) (os1 : OrchSt) (a einc : Nat)
    (h : procFile fuel oracle useTr os f keys = some (evs, os1, a, einc)) :
    einc = 0 ∧ Ev.provSwitch ∉ evs ∧
      (∀ g k, Ev.tCall g k ∈ evs → g = f) ∧
      (∀ g c, Ev.fwrite g c ∈ evs → g = f) := by
  unfold procFile at h
  rcases hk : addKeysToTranslationFile fuel oracle (lookupA os.fs f)
      (basenameNoDart f) keys useTr os.english os.tst with _ | r
  · rw [hk] at h; cases h
  · rcases r with e2 | o
    · exact absurd hk (addKeys_not_error _ _ _ _ _ _ _ _ _)
    · rw [hk] at h
      simp only [Option.some.injEq] at h
      obtain ⟨rfl, rfl, rfl, rfl⟩ := Prod.mk.injEq _ _ _ _ ▸ h
      refine ⟨rfl, ?_, ?_, ?_⟩
      · intro hmem
        rcases List.mem_append.mp hmem with hmem | hmem
        · rcases tagEvs_shape f o.evs _ hmem with ⟨k2, he⟩ | he | he | ⟨k2, v2, he⟩ <;>
            cases he
        · rcases hw : o.wrote with _ | c <;> rw [hw] at hmem <;> simp at hmem
      · intro g k hmem
        rcases List.mem_append.mp hmem with hmem | hmem
        · exact tagEvs_tCall hmem
        · rcases hw : o.wrote with _ | c <;> rw [hw] at hmem <;> simp at hmem
      · intro g c hmem
        rcases List.mem_append.mp hmem with hmem | hmem
        · rcases tagEvs_shape f o.evs _ hmem with ⟨k2, he⟩ | he | he | ⟨k2, v2, he⟩ <;>
            cases he
        · rcases hw : o.wrote with _ | c2 <;> rw [hw] at hmem <;> simp at hmem
          exact hmem.1

theorem orchLoop_facts (fuel : Nat) (oracle : Oracle) (keys : List (List Char)) :
    ∀ (rem : List (List Char)) (os : OrchSt),
      (∀ f k, Ev.tCall f k ∈ (orchLoop fuel oracle keys rem os).1 → f ∈ rem) ∧
      Ev.provSwitch ∉ (orchLoop fuel oracle keys rem os).1 ∧
      (∀ os2 a e, (orchLoop fuel oracle keys rem os).2 = some (os2, a, e) →
        e = 0) := by
  intro rem
  induction rem with
  | nil =>
    intro os
    refine ⟨by simp [orchLoop], by simp [orchLoop], ?_⟩
    intro os2 a e h
    simp only [orchLoop, Option.some.injEq, Prod.mk.injEq] at h
    exact h.2.2.symm
  | cons f rest ih =>
    intro os
    rcases hp : procFile fuel oracle true os f keys with _ | r
    · have hO : orchLoop fuel oracle keys (f :: rest) os = ([], none) := by
        simp [orchLoop, hp]
      rw [hO]
      exact ⟨by simp, by simp, by simp⟩
    · obtain ⟨evs, os1, a, e⟩ := r
      obtain ⟨he0, hps, htc, _⟩ := procFile_shape fuel oracle true os f keys
        evs os1 a e hp
      obtain ⟨ih1, ih2, ih3⟩ := ih os1
      have hO1 : (orchLoop fuel oracle keys (f :: rest) os).1 =
          evs ++ (orchLoop fuel oracle keys rest os1).1 := by
        simp only [orchLoop, hp]
        rcases orchLoop fuel oracle keys rest os1 with ⟨evs2, _ | ⟨os3, a3, e3⟩⟩ <;>
          rfl
      have hO2 : ∀ os2 a2 e2,
          (orchLoop fuel oracle keys (f :: rest) os).2 = some (os2, a2, e2) →
          ∃ a3 e3, (orchLoop fuel oracle keys rest os1).2 = some (os2, a3, e3) ∧
            a2 = a + a3 ∧ e2 = e + e3 := by
        simp only [orchLoop, hp]
        rcases orchLoop fuel oracle keys rest os1 with ⟨evs2, _ | ⟨os3, a3, e3⟩⟩
        · intro os2 a2 e2 h
          simp at h
        · intro os2 a2 e2 h
          simp only [Option.some.injEq] at h
          obtain ⟨rfl, rfl, rfl⟩ := Prod.mk.injEq _ _ _ _ ▸ h
          exact ⟨a3, e3, rfl, rfl, rfl⟩
      refine ⟨?_, ?_, ?_⟩
      · intro g k hmem
        rw [hO1] at hmem
        rcases List.mem_append.mp hmem with hmem | hmem
        · exact (htc g k hmem) ▸ List.mem_cons_self _ _
        · exact List.mem_cons_of_mem _ (ih1 g k hmem)
      · rw [hO1]
        intro hmem
        rcases List.mem_append.mp hmem with hmem | hmem
        · exact hps hmem
        · exact ih2 hmem
      · intro os2 a2 e2 h
        obtain ⟨a3, e3, hrec, rfl, rfl⟩ := hO2 os2 a2 e2 h
        rw [he0, ih3 os2 a3 e3 hrec]


theorem enPhase_evs (fuel : Nat) (oracle : Oracle) (os : OrchSt)
    (enf : List Char) (keys : List (List Char)) :
    (∀ e ∈ (enPhase fuel oracle os enf keys).1, ∀ f k, e ≠ Ev.tCall f k) ∧
    (∀ e ∈ (enPhase fuel oracle os enf keys).1, ∀ f c,
      e = Ev.fwrite f c → f = enf) ∧
    (∀ e ∈ (enPhase fuel oracle os enf keys).1, ∀ f k v,
      e = Ev.entryAddE f k v → f = enf ∧ v = k) ∧
    (∀ x, (enPhase fuel oracle os enf keys).2 = some x →
      ∃ pairs, Ev.engCapture pairs ∈ (enPhase fuel oracle os enf keys).1) ∧
    Ev.provSwitch ∉ (enPhase fuel oracle os enf keys).1 := by
  rcases hk : addKeysToTranslationFile fuel oracle (lookupA os.fs enf)
      (basenameNoDart enf) keys false os.english os.tst with _ | r
  · have h1 : enPhase fuel oracle os enf keys = ([], none) := by
      simp [enPhase, hk]
    rw [h1]
    exact ⟨by simp, by simp, by simp, by intro x h; simp at h, by simp⟩
  · rcases r with e2 | o
    · exact absurd hk (addKeys_not_error _ _ _ _ _ _ _ _ _)
    · have hevshape := addKeysNT_evs _ _ _ _ _ _ _ _ hk
      have hno_t : ∀ e ∈ tagEvs enf o.evs ++
          (match o.wrote with
           | some c => [Ev.fwrite enf c]
           | none => []), ∀ f k, e ≠ Ev.tCall f k := by
        intro e he f k
        rcases List.mem_append.mp he with he | he
        · rcases List.mem_map.mp he with ⟨aev, haev, rfl⟩
          rcases hevshape aev haev with h | h | ⟨k2, h⟩ <;> subst h <;> simp
        · rcases hw : o.wrote with _ | c <;> rw [hw] at he <;> simp at he
          subst he
          simp
      have hwr : ∀ e ∈ tagEvs enf o.evs ++
          (match o.wrote with
           | some c => [Ev.fwrite enf c]
           | none => []), ∀ f c, e = Ev.fwrite f c → f = enf := by
        intro e he f c hfc
        subst hfc
        rcases List.mem_append.mp he with he | he
        · rcases tagEvs_shape enf o.evs _ he with ⟨k2, h⟩ | h | h | ⟨k2, v2, h⟩ <;>
            cases h
        · rcases hw : o.wrote with _ | c2 <;> rw [hw] at he <;> simp at he
          exact he.1
      have hea : ∀ e ∈ tagEvs enf o.evs ++
          (match o.wrote with
           | some c => [Ev.fwrite enf c]
           | none => []), ∀ f k v, e = Ev.entryAddE f k v → f = enf ∧ v = k := by
        intro e he f k v hfc
        subst hfc
        rcases List.mem_append.mp he with he | he
        · rcases List.mem_map.mp he with ⟨aev, haev, him⟩
          rcases hevshape aev haev with h | h | ⟨k2, h⟩ <;> subst h <;>
            simp [tagEvs] at him
          obtain ⟨rfl, rfl, rfl⟩ := him
          exact ⟨rfl, rfl⟩
        · rcases hw : o.wrote with _ | c2 <;> rw [hw] at he <;> simp at he
      rcases hl2 : lookupA
          (match o.wrote with
           | some c => setA os.fs enf c
           | none => os.fs) enf with _ | c2
      · have h1 : enPhase fuel oracle os enf keys =
            (tagEvs enf o.evs ++
              (match o.wrote with
               | some c => [Ev.fwrite enf c]
               | none => []), none) := by
          simp only [enPhase, hk]
          rw [hl2]
        rw [h1]
        have hps : Ev.provSwitch ∉ tagEvs enf o.evs ++
            (match o.wrote with
             | some c => [Ev.fwrite enf c]
             | none => []) := by
          intro hmem
          rcases List.mem_append.mp hmem with he | he
          · rcases tagEvs_shape enf o.evs _ he with ⟨k2, h⟩ | h | h | ⟨k2, v2, h⟩ <;>
              cases h
          · rcases hw : o.wrote with _ | c2 <;> rw [hw] at he <;> simp at he
        exact ⟨hno_t, hwr, hea, by intro x h; simp at h, hps⟩
      · have h1 : enPhase fuel oracle os enf keys =
            ((tagEvs enf o.evs ++
              (match o.wrote with
               | some c => [Ev.fwrite enf c]
               | none => [])) ++ [Ev.engCapture (scanKV true c2)],
             some (⟨(match o.wrote with
                     | some c => setA os.fs enf c
                     | none => os.fs),
               (scanKV true c2).foldl (fun m kv => setA m kv.1 kv.2) o.english,
               o.tst⟩, o.added)) := by
          simp only [enPhase, hk]
          rw [hl2]
        rw [h1]
        have hps : Ev.provSwitch ∉ tagEvs enf o.evs ++
            (match o.wrote with
             | some c => [Ev.fwrite enf c]
             | none => []) := by
          intro hmem
          rcases List.mem_append.mp hmem with he | he
          · rcases tagEvs_shape enf o.evs _ he with ⟨k2, h⟩ | h | h | ⟨k2, v2, h⟩ <;>
              cases h
          · rcases hw : o.wrote with _ | c2 <;> rw [hw] at he <;> simp at he
        refine ⟨?_, ?_, ?_, fun x _ => ⟨scanKV true c2, by simp⟩, ?_⟩
        · intro e he f k
          rcases List.mem_append.mp he with he | he
          · exact hno_t e he f k
          · simp at he
            subst he
            simp
        · intro e he f c hfc
          rcases List.mem_append.mp he with he | he
          · exact hwr e he f c hfc
          · simp at he
            subst he
            cases hfc
        · intro e he f k v hfc
          rcases List.mem_append.mp he with he | he
          · exact hea e he f k v hfc
          · simp at he
            subst he
            cases hfc
        · intro hmem
          rcases List.mem_append.mp hmem with he | he
          · exact hps he
          · simp at he

/-- Claim C5 (confirmed). When the target list contains a base-locale file
(basename `en_US` or `en`), the trace of `addKeysWithTranslation` splits into
an en-phase `t1` followed by `t2` such that: `t1` contains no translation
call; every write in `t1` is to the base file; every entry added in `t1` has
value equal to key (translation disabled); unless the run stopped during the
en-phase (`t2 = []`), `t1` contains the capture of the base file's key/value
pairs into the English fallback table; and no translation call in `t2` is for
the base file, which was removed from the remaining work list. -/
theorem c5_base_locale_first
    (fuel : Nat) (oracle : Oracle) (files : List (List Char))
    (keys : List (List Char)) (os : OrchSt) (mgrOk : Bool) (enf : List Char)
    (hfind : files.find? isBaseFile = some enf) :
    ∃ t1 t2,
      (addKeysWithTranslation fuel oracle files keys os mgrOk).1 = t1 ++ t2 ∧
      (∀ e ∈ t1, ∀ f k, e ≠ Ev.tCall f k) ∧
      (∀ e ∈ t1, ∀ f c, e = Ev.fwrite f c → f = enf) ∧
      (∀ e ∈ t1, ∀ f k v, e = Ev.entryAddE f k v → f = enf ∧ v = k) ∧
      ((∃ pairs, Ev.engCapture pairs ∈ t1) ∨ t2 = []) ∧
      (∀ f k, Ev.tCall f k ∈ t2 → f ≠ enf) := by
  obtain ⟨hno_t, hwr, hea, hcap, _⟩ := enPhase_evs fuel oracle os enf keys
  unfold addKeysWithTranslation
  rw [hfind]
  dsimp only
  rcases hE : enPhase fuel oracle os enf keys with ⟨evs, res⟩
  rw [hE] at hno_t hwr hea hcap
  rcases res with _ | x
  · refine ⟨evs, [], by simp, hno_t, hwr, hea, Or.inr rfl, by simp⟩
  · obtain ⟨os2, a1⟩ := x
    have hcapev : ∃ pairs, Ev.engCapture pairs ∈ evs := hcap (os2, a1) rfl
    dsimp only
    by_cases hm : mgrOk = true
    · rw [if_pos hm]
      refine ⟨evs, (orchLoop fuel oracle keys
          (files.filter (fun f => f ≠ enf)) os2).1,
        rfl, hno_t, hwr, hea, Or.inl hcapev, ?_⟩
      intro f k hmem
      have hf := (orchLoop_facts fuel oracle keys
        (files.filter (fun f => f ≠ enf)) os2).1 f k hmem
      have := List.mem_filter.mp hf
      simpa using this.2
    · rw [if_neg hm]
      refine ⟨evs, (if files.filter (fun f => f ≠ enf) = [] then []
          else [Ev.dialog]), rfl, hno_t, hwr, hea, Or.inl hcapev, ?_⟩
      intro f k hmem
      by_cases hrem : files.filter (fun f => f ≠ enf) = [] <;>
        simp [hrem] at hmem

def enFile : List Char := "en.dart".toList

def frFile : List Char := "fr.dart".toList

def frMapFile : List Char :=
  ("Map<String, String> fr = ".toList) ++ [lbc, rbc, ';']

def c5Os : OrchSt := ⟨[(enFile, emptyMapFile), (frFile, frMapFile)], [], ⟨[], 0⟩⟩

def c5Oracle : Oracle := fun _ _ => .ok "bonjour".toList

/-- Witness for C5: the spec's `en_US`-before-`fr` scenario, with an `en`
base file and a `fr` target. -/
theorem c5_base_locale_first_witness :
    ∃ t1 t2,
      (addKeysWithTranslation 3 c5Oracle [enFile, frFile] [helloKey] c5Os
        true).1 = t1 ++ t2 ∧
      (∀ e ∈ t1, ∀ f k, e ≠ Ev.tCall f k) ∧
      (∀ e ∈ t1, ∀ f c, e = Ev.fwrite f c → f = enFile) ∧
      (∀ e ∈ t1, ∀ f k v, e = Ev.entryAddE f k v → f = enFile ∧ v = k) ∧
      ((∃ pairs, Ev.engCapture pairs ∈ t1) ∨ t2 = []) ∧
      (∀ f k, Ev.tCall f k ∈ t2 → f ≠ enFile) :=
  c5_base_locale_first 3 c5Oracle [enFile, frFile] [helloKey] c5Os true enFile
    (by decide)

/-!
## Claim C10: totality of `addKeysToTranslationFile` towards its caller
-/

/-- The claim as stated: for every input the function returns a number (and
never propagates an exception), i.e. some fuel suffices for a normal return. -/
def ClaimC10Total : Prop :=
  ∀ (oracle : Oracle) (readRes : Option (List Char)) (locale : List Char)
    (keys : List (List Char)) (useTr : Bool)
    (english : List (List Char × List Char)) (tst : TransSt),
    ∃ (fuel : Nat) (o : AddOut),
      addKeysToTranslationFile fuel oracle readRes locale keys useTr english
        tst = some (.ok o)

/-- Claim C10 counterexample. Under a backend that always answers 429, a
translated run on a file with one new key diverges inside `translateText`
(see C6), so `addKeysToTranslationFile` does not return for any fuel: the
totality claim is false. -/
theorem c10_totality_counterexample : ¬ ClaimC10Total := by
  intro h
  obtain ⟨fuel, o, ho⟩ := h always429 (some emptyMapFile) "fr".toList
    [helloKey] true [] ⟨[], 0⟩
  have hdiv := translateText_always429 [] helloKey "fr".toList fuel 0
  have hpk : perKeyTranslationValue [] always429 fuel ⟨[], 0⟩ helloKey
      "fr".toList = none := by
    unfold perKeyTranslationValue
    rw [hdiv]
  have htl : transLoop always429 "fr".toList fuel [helloKey] [] ⟨[], 0⟩ =
      none := by
    unfold transLoop
    rw [hpk]
  have hbody : addKeysBody fuel always429 (some emptyMapFile) "fr".toList
      [helloKey] true [] ⟨[], 0⟩ = none := by
    unfold addKeysBody
    dsimp only
    have hfm : findMap emptyMapFile =
        some ⟨[], ("Map<String, String> en = ".toList) ++ [lbc, rbc], [],
          [';']⟩ := by decide
    rw [hfm]
    have hnk : [helloKey].filter
        (fun k => ¬ k ∈ extractExistingKeys emptyMapFile) = [helloKey] := by
      decide
    rw [hnk]
    rw [if_neg (by decide : ¬ ([helloKey] = ([] : List (List Char))))]
    rw [if_pos (by decide : (true && !decide ("fr".toList = "en_US".toList) &&
      !decide ("fr".toList = "en".toList)) = true)]
    rw [htl]
  have hnone : addKeysToTranslationFile fuel always429 (some emptyMapFile)
      "fr".toList [helloKey] true [] ⟨[], 0⟩ = none := by
    unfold addKeysToTranslationFile
    rw [hbody]
  rw [hnone] at ho
  cases ho

/-- Claim C10 (corrected). Whenever `addKeysToTranslationFile` terminates it
returns a normal count and never propagates an exception (the try/catch spans
the whole body and maps any thrown error to a return of 0); consequently the
orchestrator's per-file catch is never entered: a terminating orchestrator
run reports an error count of 0 and its trace contains no provider-switch
event.  Termination itself is not guaranteed (see the counterexample). -/
theorem c10_no_exception_amended :
    (∀ (fuel : Nat) (oracle : Oracle) (readRes : Option (List Char))
       (locale : List Char) (keys : List (List Char)) (useTr : Bool)
       (english : List (List Char × List Char)) (tst : TransSt) (e : JsErr),
       addKeysToTranslationFile fuel oracle readRes locale keys useTr english
         tst ≠ some (.error e)) ∧
    (∀ (fuel : Nat) (oracle : Oracle) (files keys : List (List Char))
       (os : OrchSt) (mgrOk : Bool) (os2 : OrchSt) (a e : Nat),
       (addKeysWithTranslation fuel oracle files keys os mgrOk).2 =
         some (os2, a, e) → e = 0) ∧
    (∀ (fuel : Nat) (oracle : Oracle) (files keys : List (List Char))
       (os : OrchSt) (mgrOk : Bool),
       Ev.provSwitch ∉ (addKeysWithTranslation fuel oracle files keys os
         mgrOk).1) := by
  refine ⟨fun fuel oracle readRes locale keys useTr english tst e =>
    addKeys_not_error fuel oracle readRes locale keys useTr english tst e,
    ?_, ?_⟩
  · intro fuel oracle files keys os mgrOk os2 a e h
    unfold addKeysWithTranslation at h
    rcases hf : files.find? isBaseFile with _ | enf
    · try rw [hf] at h
      dsimp only at h
      by_cases hm : mgrOk = true
      · rw [if_pos hm] at h
        exact (orchLoop_facts fuel oracle keys files os).2.2 os2 a e h
      · rw [if_neg hm] at h
        simp only [Option.some.injEq, Prod.mk.injEq] at h
        exact h.2.2.symm
    · try rw [hf] at h
      dsimp only at h
      rcases hE : enPhase fuel oracle os enf keys with ⟨evs, res⟩
      try rw [hE] at h
      rcases res with _ | ⟨os3, a1⟩
      · dsimp only at h
        simp at h
      · dsimp only at h
        by_cases hm : mgrOk = true
        · rw [if_pos hm] at h
          dsimp only at h
          rcases Option.map_eq_some'.mp h with ⟨⟨os4, a4, e4⟩, hrec, hx⟩
          obtain ⟨rfl, rfl, rfl⟩ := Prod.mk.injEq _ _ _ _ ▸ hx.symm
          exact (orchLoop_facts fuel oracle keys
            (files.filter (fun f => f ≠ enf)) os3).2.2 _ _ _ hrec
        · rw [if_neg hm] at h
          simp only [Option.some.injEq, Prod.mk.injEq] at h
          exact h.2.2.symm
  · intro fuel oracle files keys os mgrOk
    unfold addKeysWithTranslation
    rcases hf : files.find? isBaseFile with _ | enf
    · try rw [hf]
      dsimp only
      by_cases hm : mgrOk = true
      · rw [if_pos hm]
        exact (orchLoop_facts fuel oracle keys files os).2.1
      · rw [if_neg hm]
        by_cases hfl : files = [] <;> simp [hfl]
    · try rw [hf]
      dsimp only
      have hps := (enPhase_evs fuel oracle os enf keys).2.2.2.2
      rcases hE : enPhase fuel oracle os enf keys with ⟨evs, res⟩
      rw [hE] at hps
      try rw [hE]
      rcases res with _ | ⟨os3, a1⟩
      · dsimp only
        exact hps
      · dsimp only
        by_cases hm : mgrOk = true
        · rw [if_pos hm]
          intro hmem
          rcases List.mem_append.mp hmem with he | he
          · exact hps he
          · exact (orchLoop_facts fuel oracle keys
              (files.filter (fun f => f ≠ enf)) os3).2.1 he
        · rw [if_neg hm]
          intro hmem
          rcases List.mem_append.mp hmem with he | he
          · exact hps he
          · by_cases hrem : files.filter (fun f => f ≠ enf) = [] <;>
              simp [hrem] at he

def c10WOs : OrchSt := ⟨[(enFile, emptyMapFile)], [], ⟨[], 0⟩⟩

/-- Witness for C10's amended theorem: a terminating run reports error count
0 (and no provider switch happened). -/
theorem c10_no_exception_amended_witness :
    (addKeysWithTranslation 1 c5Oracle [enFile] [helloKey] c10WOs true).2.map
        (fun x => x.2.2) = some 0 ∧
    Ev.provSwitch ∉ (addKeysWithTranslation 1 c5Oracle [enFile] [helloKey]
      c10WOs true).1 := by
  constructor
  · rcases hres : (addKeysWithTranslation 1 c5Oracle [enFile] [helloKey]
        c10WOs true).2 with _ | ⟨os2, a, e⟩
    · exact absurd hres (by decide)
    · have he := c10_no_exception_amended.2.1 1 c5Oracle [enFile] [helloKey]
        c10WOs true os2 a e hres
      rw [he]
      rfl
  · exact c10_no_exception_amended.2.2 1 c5Oracle [enFile] [helloKey] c10WOs
      true

/-!
## The canonical locale-file family and idempotence of the merge (claim C3)

The merge is analysed on well-formed files: a single map declaration whose
body interleaves quote-free glue with quoted key/value entries, followed by a
quote-free tail.  The scanners are deterministic, so their behaviour on such
files is computed by composition lemmas.
-/

theorem dropWhile_len_le (p : α → Bool) (l : List α) :
    (l.dropWhile p).length ≤ l.length := by
  induction l with
  | nil => simp
  | cons c t ih =>
    by_cases h : p c = true
    · simp [List.dropWhile, h]
      omega
    · simp [List.dropWhile, h]

theorem matchKV_len (b : Bool) :
    ∀ (s k v r : List Char), matchKV b s = some (k, v, r) →
      r.length < s.length := by
  intro s k v r h
  rcases s with _ | ⟨c, rest⟩
  · cases h
  · unfold matchKV at h
    dsimp only at h
    split at h
    · split at h
      · cases h
      · split at h
        · cases h
        · next q2 r3 heq2 =>
          split at h
          · next r5 heq4 =>
            split at h
            · cases h
            · next c2 r7 heq6 =>
              split at h
              · split at h
                · cases h
                · split at h
                  · cases h
                  · next q4 r9 heq8 =>
                    simp only [Option.some.injEq, Prod.mk.injEq] at h
                    obtain ⟨-, -, hr⟩ := h
                    have l2 : r3.length + 1 ≤ rest.length := by
                      have := dropWhile_len_le (fun d => !isQuote d) rest
                      rw [heq2] at this
                      simp at this
                      omega
                    have l4 : r5.length + 1 ≤ r3.length := by
                      have := dropWhile_len_le isWsJs r3
                      rw [heq4] at this
                      simp at this
                      omega
                    have l6 : r7.length + 1 ≤ r5.length := by
                      have := dropWhile_len_le isWsJs r5
                      rw [heq6] at this
                      simp at this
                      omega
                    have l8 : r9.length + 1 ≤ r7.length := by
                      have := dropWhile_len_le (fun d => !isQuote d) r7
                      rw [heq8] at this
                      simp at this
                      omega
                    have hrr : r.length = r9.length := by rw [hr]
                    simp only [List.length_cons]
                    omega
              · cases h
          · cases h
    · cases h

theorem scanKVGo_fuel (b : Bool) :
    ∀ (n : Nat) (s : List Char), s.length ≤ n → scanKVGo b n s = scanKV b s := by
  intro n
  induction n using Nat.strong_induction_on with
  | _ n ih =>
    intro s hs
    rcases s with _ | ⟨c, rest⟩
    · cases n <;> rfl
    · rcases n with _ | n
      · simp at hs
      · have hrest : rest.length ≤ n := by
          simp only [List.length_cons] at hs
          omega
        show scanKVGo b (n + 1) (c :: rest) =
          scanKVGo b (c :: rest).length (c :: rest)
        simp only [scanKVGo, List.length_cons]
        rcases hm : matchKV b (c :: rest) with _ | ⟨k, v, r⟩
        · dsimp only
          rw [ih n (Nat.lt_succ_self n) rest hrest,
            ih rest.length (by omega) rest (le_refl _)]
        · have hlen := matchKV_len b (c :: rest) k v r hm
          simp only [List.length_cons] at hlen
          dsimp only
          rw [ih n (Nat.lt_succ_self n) r (by omega),
            ih rest.length (by omega) r (by omega)]

theorem scanKV_cons_nonquote {c : Char} (b : Bool) (t : List Char)
    (h : isQuote c = false) : scanKV b (c :: t) = scanKV b t := by
  show scanKVGo b (c :: t).length (c :: t) = scanKV b t
  simp only [List.length_cons, scanKVGo]
  rw [show matchKV b (c :: t) = none by simp [matchKV, h]]
  exact scanKVGo_fuel b t.length t (le_refl _)

theorem scanKV_skip (b : Bool) (g : List Char)
    (hg : ∀ c ∈ g, isQuote c = false) (s : List Char) :
    scanKV b (g ++ s) = scanKV b s := by
  induction g with
  | nil => rfl
  | cons c t ih =>
    rw [List.cons_append, scanKV_cons_nonquote b _ (hg c (by simp))]
    exact ih (fun d hd => hg d (by simp [hd]))

theorem scanKV_match_step (b : Bool) (s k v r : List Char)
    (h : matchKV b s = some (k, v, r)) :
    scanKV b s = (k, v) :: scanKV b r := by
  rcases s with _ | ⟨c, rest⟩
  · cases h
  · show scanKVGo b (c :: rest).length (c :: rest) = _
    simp only [List.length_cons, scanKVGo, h]
    have hlen := matchKV_len b (c :: rest) k v r h
    simp only [List.length_cons] at hlen
    rw [scanKVGo_fuel b rest.length r (by omega)]

/-- One rendered entry without the leading indentation. -/
def entryChars (k v : List Char) : List Char :=
  dqc :: (k ++ dqc :: ':' :: ' ' :: dqc :: (v ++ [dqc]))

theorem entryLine_eq (k v : List Char) :
    entryLine k v = ' ' :: ' ' :: entryChars k v := rfl

theorem matchKV_entry (k v rest : List Char) (hk : k ≠ [])
    (hkq : ∀ c ∈ k, isQuote c = false) (hvq : ∀ c ∈ v, isQuote c = false) :
    matchKV false (entryChars k v ++ rest) = some (k, v, rest) := by
  have hnq : (!isQuote dqc) = false := by decide
  have hka : ∀ x ∈ k, (!isQuote x) = true := by intro x hx; simp [hkq x hx]
  have hva : ∀ x ∈ v, (!isQuote x) = true := by intro x hx; simp [hvq x hx]
  have hke : k.isEmpty = false := by
    cases k with
    | nil => exact absurd rfl hk
    | cons a t => rfl
  have hshape : entryChars k v ++ rest =
      dqc :: (k ++ dqc :: (':' :: ' ' :: dqc :: (v ++ dqc :: rest))) := by
    simp [entryChars]
  have htake1 : (k ++ dqc :: (':' :: ' ' :: dqc :: (v ++ dqc :: rest))).takeWhile
      (fun d => !isQuote d) = k := takeWhile_append_stop hka hnq
  have hdrop1 : (k ++ dqc :: (':' :: ' ' :: dqc :: (v ++ dqc :: rest))).dropWhile
      (fun d => !isQuote d) = dqc :: (':' :: ' ' :: dqc :: (v ++ dqc :: rest)) :=
    dropWhile_append_stop hka hnq
  have htake2 : (v ++ dqc :: rest).takeWhile (fun d => !isQuote d) = v :=
    takeWhile_append_stop hva hnq
  have hdrop2 : (v ++ dqc :: rest).dropWhile (fun d => !isQuote d) = dqc :: rest :=
    dropWhile_append_stop hva hnq
  rw [hshape]
  simp only [matchKV, show isQuote dqc = true from by decide, if_pos]
  rw [htake1, hdrop1]
  simp [hke, List.dropWhile_cons, htake2, hdrop2,
    show isWsJs ':' = false from by decide,
    show isWsJs ' ' = true from by decide,
    show isWsJs dqc = false from by decide,
    show isQuote dqc = true from by decide]

theorem dropLit_pref : ∀ (p s : List Char), dropLit p (p ++ s) = some s := by
  intro p
  induction p with
  | nil => intro s; rfl
  | cons c t ih => intro s; simp [dropLit, ih]

theorem litAt_pref : ∀ (p s : List Char), litAt p (p ++ s) = true := by
  intro p
  induction p with
  | nil => intro s; rfl
  | cons c t ih => intro s; simp [litAt, ih]

theorem firstOccGo_boundary (p0 : Char) (pt post : List Char) :
    ∀ (pre : List Char) (i : Nat), (∀ c ∈ pre, p0 ≠ c) →
      firstOccGo ((pre ++ (p0 :: pt) ++ post).length + 1) i
        (pre ++ (p0 :: pt) ++ post) (p0 :: pt) = some (i + pre.length) := by
  intro pre
  induction pre with
  | nil =>
    intro i h
    simp only [List.nil_append, firstOccGo, litAt_pref, if_pos, List.length_nil]
    rfl
  | cons c pre' ih =>
    intro i h
    have hne : p0 ≠ c := h c (by simp)
    have hlit : litAt (p0 :: pt) (c :: (pre' ++ (p0 :: pt) ++ post)) = false := by
      simp [litAt, hne]
    show firstOccGo ((c :: (pre' ++ (p0 :: pt) ++ post)).length + 1) i
        (c :: (pre' ++ (p0 :: pt) ++ post)) (p0 :: pt) = some (i + (c :: pre').length)
    simp only [List.length_cons, firstOccGo, hlit, Bool.false_eq_true, if_false,
      List.append_eq]
    rw [ih (i + 1) (fun d hd => h d (by simp [hd]))]
    congr 1
    omega

theorem firstOcc_boundary (p0 : Char) (pt post pre : List Char)
    (h : ∀ c ∈ pre, p0 ≠ c) :
    firstOcc (pre ++ (p0 :: pt) ++ post) (p0 :: pt) = some pre.length := by
  have := firstOccGo_boundary p0 pt post pre 0 h
  simpa [firstOcc] using this

theorem firstOcc_nil_pat (s : List Char) : firstOcc s [] = some 0 := by
  cases s <;> rfl

theorem substDollar_no_dollar (m b a : List Char) :
    ∀ s, (∀ c ∈ s, c ≠ dollarc) → substDollar m b a s = s := by
  intro s
  induction s with
  | nil => intro h; rfl
  | cons c rest ih =>
    intro h
    have hc : c ≠ dollarc := h c (by simp)
    show substDollar m b a (c :: rest) = c :: rest
    rw [substDollar.eq_def]
    dsimp only
    rw [if_neg hc, ih (fun d hd => h d (by simp [hd]))]

theorem trimJs_ne_nil {l : List Char} {c : Char} (hc : c ∈ l)
    (hw : isWsJs c = false) : trimJs l ≠ [] := by
  intro h
  unfold trimJs at h
  rw [List.reverse_eq_nil_iff, List.dropWhile_eq_nil_iff] at h
  have hall : ∀ a ∈ l.dropWhile isWsJs, isWsJs a = true := by
    intro a ha
    exact h a (by simp [ha])
  have : c ∈ l.takeWhile isWsJs ∨ c ∈ l.dropWhile isWsJs := by
    rw [← List.mem_append, List.takeWhile_append_dropWhile]
    exact hc
  rcases this with h1 | h2
  · exact absurd (List.mem_takeWhile_imp h1) (by simp [hw])
  · exact absurd (hall c h2) (by simp [hw])

/-- The declaration header of a canonical locale file. -/
def mapHdr (nm : List Char) : List Char :=
  "Map<String, String> ".toList ++ nm ++ ' ' :: '=' :: ' ' :: [lbc]

/-- A canonical map body: glue/entry alternation followed by a final glue. -/
def bodyOf : List (List Char × List Char × List Char) → List Char → List Char
  | [], gl => gl
  | (g, k, v) :: rest, gl => g ++ (entryChars k v ++ bodyOf rest gl)

/-- A canonical locale file: one map declaration and a tail. -/
def canonFile (nm : List Char) (ps : List (List Char × List Char × List Char))
    (gl sfx : List Char) : List Char :=
  mapHdr nm ++ bodyOf ps gl ++ rbc :: sfx

theorem scanKV_bodyOf
    (ps : List (List Char × List Char × List Char)) (tail : List Char)
    (hps : ∀ e ∈ ps, (∀ c ∈ e.1, isQuote c = false) ∧ e.2.1 ≠ [] ∧
      (∀ c ∈ e.2.1, isQuote c = false) ∧ (∀ c ∈ e.2.2, isQuote c = false)) :
    scanKV false (bodyOf ps tail) =
      ps.map (fun e => (e.2.1, e.2.2)) ++ scanKV false tail := by
  induction ps with
  | nil => simp [bodyOf]
  | cons e rest ih =>
    obtain ⟨g, k, v⟩ := e
    obtain ⟨hg, hk, hkq, hvq⟩ := hps (g, k, v) (by simp)
    show scanKV false (g ++ (entryChars k v ++ bodyOf rest tail)) = _
    rw [scanKV_skip false g hg,
      scanKV_match_step false _ k v (bodyOf rest tail)
        (matchKV_entry k v _ hk hkq hvq),
      ih (fun x hx => hps x (by simp [hx]))]
    simp

theorem scanKV_entryLines (tail : List Char) :
    ∀ (pairs : List (List Char × List Char)),
      (∀ e ∈ pairs, e.1 ≠ [] ∧ (∀ c ∈ e.1, isQuote c = false) ∧
        (∀ c ∈ e.2, isQuote c = false)) →
      scanKV false (joinComma (pairs.map (fun kv => entryLine kv.1 kv.2)) ++ tail) =
        pairs ++ scanKV false tail := by
  intro pairs
  induction pairs with
  | nil => intro h; simp [joinComma]
  | cons x rest ih =>
    intro h
    obtain ⟨hk, hkq, hvq⟩ := h x (by simp)
    have hstep : ∀ t2 : List Char,
        scanKV false (entryLine x.1 x.2 ++ t2) = (x.1, x.2) :: scanKV false t2 := by
      intro t2
      rw [entryLine_eq]
      show scanKV false (' ' :: (' ' :: (entryChars x.1 x.2 ++ t2))) = _
      rw [scanKV_cons_nonquote false _ (by decide),
        scanKV_cons_nonquote false _ (by decide),
        scanKV_match_step false _ x.1 x.2 t2 (matchKV_entry x.1 x.2 t2 hk hkq hvq)]
    rcases rest with _ | ⟨y, rest2⟩
    · show scanKV false (entryLine x.1 x.2 ++ tail) = _
      rw [hstep tail]
      rfl
    · show scanKV false ((entryLine x.1 x.2 ++
        ',' :: nlc :: joinComma (((y :: rest2).map
          (fun kv => entryLine kv.1 kv.2)))) ++ tail) = _
      rw [List.append_assoc, hstep, List.cons_append, List.cons_append,
        scanKV_cons_nonquote false _ (by decide),
        scanKV_cons_nonquote false _ (by decide),
        ih (fun e he => h e (by simp [he]))]
      rfl

theorem take_pre_of_append (pre sfx : List Char) :
    (pre ++ sfx).take ((pre ++ sfx).length - sfx.length) = pre := by
  have h : (pre ++ sfx).length - sfx.length = pre.length := by
    rw [List.length_append]
    omega
  rw [h, List.take_left]

theorem matchMapAt_canon (nm body sfx : List Char)
    (hnm : nm ≠ []) (hnmw : ∀ c ∈ nm, isWordChar c = true)
    (hnmws : ∀ c ∈ nm, isWsJs c = false)
    (hbody : ∀ c ∈ body, c ≠ rbc) :
    matchMapAt (mapHdr nm ++ body ++ rbc :: sfx) =
      some (mapHdr nm ++ body ++ [rbc], body, sfx) := by
  rcases hnme : nm with _ | ⟨n0, nt⟩
  · exact absurd hnme hnm
  subst hnme
  have e0 : mapHdr (n0 :: nt) ++ body ++ rbc :: sfx =
      "Map<String,".toList ++ (' ' :: ("String>".toList ++ (' ' :: ((n0 :: nt) ++
        (' ' :: '=' :: ' ' :: lbc :: (body ++ rbc :: sfx)))))) := by
    simp [mapHdr]
  have h1 : dropLit ("Map<String,".toList) (mapHdr (n0 :: nt) ++ body ++ rbc :: sfx) =
      some (' ' :: ("String>".toList ++ (' ' :: ((n0 :: nt) ++
        (' ' :: '=' :: ' ' :: lbc :: (body ++ rbc :: sfx)))))) := by
    rw [e0]; exact dropLit_pref _ _
  have h2 : (' ' :: ("String>".toList ++ (' ' :: ((n0 :: nt) ++
        (' ' :: '=' :: ' ' :: lbc :: (body ++ rbc :: sfx)))))).dropWhile isWsJs =
      'S' :: ("tring>".toList ++ (' ' :: ((n0 :: nt) ++
        (' ' :: '=' :: ' ' :: lbc :: (body ++ rbc :: sfx))))) :=
    dropWhile_append_stop (a := [' ']) (by decide) (by decide)
  have h3 : dropLit ("String>".toList) ('S' :: ("tring>".toList ++ (' ' :: ((n0 :: nt) ++
        (' ' :: '=' :: ' ' :: lbc :: (body ++ rbc :: sfx)))))) =
      some (' ' :: ((n0 :: nt) ++ (' ' :: '=' :: ' ' :: lbc :: (body ++ rbc :: sfx)))) :=
    dropLit_pref ("String>".toList) _
  have hn0 : isWsJs n0 = false := hnmws n0 (by simp)
  have htk3 : (' ' :: ((n0 :: nt) ++ (' ' :: '=' :: ' ' :: lbc ::
      (body ++ rbc :: sfx)))).takeWhile isWsJs = [' '] :=
    takeWhile_append_stop (a := [' ']) (by decide) hn0
  have hdr3 : (' ' :: ((n0 :: nt) ++ (' ' :: '=' :: ' ' :: lbc ::
      (body ++ rbc :: sfx)))).dropWhile isWsJs =
      n0 :: (nt ++ (' ' :: '=' :: ' ' :: lbc :: (body ++ rbc :: sfx))) :=
    dropWhile_append_stop (a := [' ']) (by decide) hn0
  have hnmw' : ∀ x ∈ n0 :: nt, isWordChar x = true := hnmw
  have htk4 : (n0 :: (nt ++ (' ' :: '=' :: ' ' :: lbc ::
      (body ++ rbc :: sfx)))).takeWhile isWordChar = n0 :: nt := by
    show ((n0 :: nt) ++ (' ' :: '=' :: ' ' :: lbc ::
      (body ++ rbc :: sfx))).takeWhile isWordChar = n0 :: nt
    exact takeWhile_append_stop hnmw' (by decide)
  have hdr4 : (n0 :: (nt ++ (' ' :: '=' :: ' ' :: lbc ::
      (body ++ rbc :: sfx)))).dropWhile isWordChar =
      ' ' :: ('=' :: ' ' :: lbc :: (body ++ rbc :: sfx)) := by
    show ((n0 :: nt) ++ (' ' :: '=' :: ' ' :: lbc ::
      (body ++ rbc :: sfx))).dropWhile isWordChar = _
    exact dropWhile_append_stop hnmw' (by decide)
  have hdr5 : (' ' :: ('=' :: ' ' :: lbc :: (body ++ rbc :: sfx))).dropWhile isWsJs =
      '=' :: (' ' :: lbc :: (body ++ rbc :: sfx)) :=
    dropWhile_append_stop (a := [' ']) (by decide) (by decide)
  have h6 : dropLit ['='] ('=' :: (' ' :: lbc :: (body ++ rbc :: sfx))) =
      some (' ' :: lbc :: (body ++ rbc :: sfx)) := dropLit_pref ['='] _
  have hdr7 : (' ' :: lbc :: (body ++ rbc :: sfx)).dropWhile isWsJs =
      lbc :: (body ++ rbc :: sfx) :=
    dropWhile_append_stop (a := [' ']) (by decide) (by decide)
  have h8 : dropLit [lbc] (lbc :: (body ++ rbc :: sfx)) =
      some (body ++ rbc :: sfx) := dropLit_pref [lbc] _
  have hbody' : ∀ x ∈ body, (decide (x ≠ rbc)) = true := by
    intro x hx; simp [hbody x hx]
  have htk9 : (body ++ rbc :: sfx).takeWhile (fun d => decide (d ≠ rbc)) = body :=
    takeWhile_append_stop hbody' (by simp)
  have hdr9 : (body ++ rbc :: sfx).dropWhile (fun d => decide (d ≠ rbc)) =
      rbc :: sfx :=
    dropWhile_append_stop hbody' (by simp)
  have htake : (mapHdr (n0 :: nt) ++ body ++ rbc :: sfx).take
      ((mapHdr (n0 :: nt) ++ body ++ rbc :: sfx).length - sfx.length) =
      mapHdr (n0 :: nt) ++ body ++ [rbc] := by
    have e : mapHdr (n0 :: nt) ++ body ++ rbc :: sfx =
        (mapHdr (n0 :: nt) ++ body ++ [rbc]) ++ sfx := by simp
    rw [e, take_pre_of_append]
  simp only [matchMapAt, h1, h2, h3, htk3, hdr3, htk4, hdr4, hdr5, h6, hdr7, h8,
    htk9, hdr9, List.isEmpty_cons, htake]
  rfl

theorem findMap_canon (nm body sfx : List Char)
    (hnm : nm ≠ []) (hnmw : ∀ c ∈ nm, isWordChar c = true)
    (hnmws : ∀ c ∈ nm, isWsJs c = false)
    (hbody : ∀ c ∈ body, c ≠ rbc) :
    findMap (mapHdr nm ++ body ++ rbc :: sfx) =
      some ⟨[], mapHdr nm ++ body ++ [rbc], body, sfx⟩ := by
  show findMapGo ((mapHdr nm ++ body ++ rbc :: sfx).length + 1) []
    (mapHdr nm ++ body ++ rbc :: sfx) = _
  simp only [findMapGo, matchMapAt_canon nm body sfx hnm hnmw hnmws hbody]
  rfl

/-- Text safe for the canonical-file analysis: free of quotes, of the closing
brace and of the dollar sign. -/
def txtOK (s : List Char) : Prop :=
  ∀ c ∈ s, isQuote c = false ∧ c ≠ rbc ∧ c ≠ dollarc

/-- A well-formed map identifier. -/
def nmOK (nm : List Char) : Prop :=
  nm ≠ [] ∧ ∀ c ∈ nm, isWordChar c = true ∧ isWsJs c = false ∧
    isQuote c = false ∧ c ≠ dqc ∧ c ≠ nlc

/-- Well-formed glue/key/value triples. -/
def psOK (ps : List (List Char × List Char × List Char)) : Prop :=
  ∀ e ∈ ps, txtOK e.1 ∧ (e.2.1 ≠ [] ∧ txtOK e.2.1) ∧ txtOK e.2.2

/-- Well-formed keys to add. -/
def ksOK (ks : List (List Char)) : Prop := ∀ k ∈ ks, k ≠ [] ∧ txtOK k

theorem bodyOf_append (ps : List (List Char × List Char × List Char)) :
    ∀ (gl t : List Char), bodyOf ps gl ++ t = bodyOf ps (gl ++ t) := by
  induction ps with
  | nil => intro gl t; rfl
  | cons e rest ih =>
    intro gl t
    obtain ⟨g, k, v⟩ := e
    show (g ++ (entryChars k v ++ bodyOf rest gl)) ++ t =
      g ++ (entryChars k v ++ bodyOf rest (gl ++ t))
    rw [List.append_assoc, List.append_assoc, ih]

theorem scanKV_nil_of_nonquote (g : List Char)
    (hg : ∀ c ∈ g, isQuote c = false) : scanKV false g = [] := by
  have := scanKV_skip false g hg []
  simpa using this

theorem mapHdr_facts {nm : List Char} (h : nmOK nm) :
    ∀ c ∈ mapHdr nm, isQuote c = false ∧ dqc ≠ c ∧ nlc ≠ c := by
  intro c hc
  rw [mapHdr] at hc
  rcases List.mem_append.1 hc with hc | hc
  · rcases List.mem_append.1 hc with hc | hc
    · exact (by decide :
        ∀ x ∈ "Map<String, String> ".toList,
          isQuote x = false ∧ dqc ≠ x ∧ nlc ≠ x) c hc
    · obtain ⟨-, -, h3, h4, h5⟩ := h.2 c hc
      exact ⟨h3, fun he => h4 he.symm, fun he => h5 he.symm⟩
  · exact (by decide :
      ∀ x ∈ ' ' :: '=' :: ' ' :: [lbc],
        isQuote x = false ∧ dqc ≠ x ∧ nlc ≠ x) c hc

theorem entryLine_no_dollar {k v : List Char}
    (hk : ∀ c ∈ k, c ≠ dollarc) (hv : ∀ c ∈ v, c ≠ dollarc) :
    ∀ c ∈ entryLine k v, c ≠ dollarc := by
  intro c hc
  simp only [entryLine, List.mem_cons, List.mem_append, List.mem_singleton,
    List.mem_nil_iff, or_false] at hc
  rcases hc with hc | hc | hc | hc | hc | hc | hc | hc | hc | hc
  all_goals first
    | (subst hc; decide)
    | exact hk c hc
    | exact hv c hc

theorem joinComma_entryLines_no_dollar :
    ∀ (pairs : List (List Char × List Char)),
      (∀ e ∈ pairs, (∀ c ∈ e.1, c ≠ dollarc) ∧ (∀ c ∈ e.2, c ≠ dollarc)) →
      ∀ c ∈ joinComma (pairs.map (fun kv => entryLine kv.1 kv.2)), c ≠ dollarc := by
  intro pairs
  induction pairs with
  | nil => intro _ c hc; simp [joinComma] at hc
  | cons x rest ih =>
    intro h c hc
    obtain ⟨hk, hv⟩ := h x (by simp)
    rcases rest with _ | ⟨y, rest2⟩
    · exact entryLine_no_dollar hk hv c hc
    · show c ≠ dollarc
      have hc' : c ∈ entryLine x.1 x.2 ++ ',' :: nlc ::
          joinComma (((y :: rest2).map (fun kv => entryLine kv.1 kv.2))) := hc
      rcases List.mem_append.1 hc' with hc2 | hc2
      · exact entryLine_no_dollar hk hv c hc2
      · rcases List.mem_cons.1 hc2 with hc3 | hc3
        · subst hc3; decide
        · rcases List.mem_cons.1 hc3 with hc4 | hc4
          · subst hc4; decide
          · exact ih (fun e he => h e (by simp [he])) c hc4

theorem bodyOf_no_rbc {ps : List (List Char × List Char × List Char)}
    (hps : psOK ps) :
    ∀ (gl : List Char), (∀ c ∈ gl, c ≠ rbc) →
      ∀ c ∈ bodyOf ps gl, c ≠ rbc := by
  induction ps with
  | nil => intro gl hgl c hc; exact hgl c hc
  | cons e rest ih =>
    intro gl hgl c hc
    obtain ⟨g, k, v⟩ := e
    obtain ⟨hg, ⟨-, hk⟩, hv⟩ := hps (g, k, v) (by simp)
    have hc' : c ∈ g ++ (entryChars k v ++ bodyOf rest gl) := hc
    rcases List.mem_append.1 hc' with hc2 | hc2
    · exact (hg c hc2).2.1
    · rcases List.mem_append.1 hc2 with hc3 | hc3
      · simp only [entryChars, List.mem_cons, List.mem_append,
          List.mem_singleton, List.mem_nil_iff, or_false] at hc3
        rcases hc3 with hc3 | hc3 | hc3 | hc3 | hc3 | hc3 | hc3 | hc3
        all_goals first
          | (subst hc3; decide)
          | exact (hk c hc3).2.1
          | exact (hv c hc3).2.1
      · exact ih (fun x hx => hps x (by simp [hx])) gl hgl c hc3

theorem bodyOf_no_dollar {ps : List (List Char × List Char × List Char)}
    (hps : psOK ps) :
    ∀ (gl : List Char), (∀ c ∈ gl, c ≠ dollarc) →
      ∀ c ∈ bodyOf ps gl, c ≠ dollarc := by
  induction ps with
  | nil => intro gl hgl c hc; exact hgl c hc
  | cons e rest ih =>
    intro gl hgl c hc
    obtain ⟨g, k, v⟩ := e
    obtain ⟨hg, ⟨-, hk⟩, hv⟩ := hps (g, k, v) (by simp)
    have hc' : c ∈ g ++ (entryChars k v ++ bodyOf rest gl) := hc
    rcases List.mem_append.1 hc' with hc2 | hc2
    · exact (hg c hc2).2.2
    · rcases List.mem_append.1 hc2 with hc3 | hc3
      · simp only [entryChars, List.mem_cons, List.mem_append,
          List.mem_singleton, List.mem_nil_iff, or_false] at hc3
        rcases hc3 with hc3 | hc3 | hc3 | hc3 | hc3 | hc3 | hc3 | hc3
        all_goals first
          | (subst hc3; decide)
          | exact (hk c hc3).2.2
          | exact (hv c hc3).2.2
      · exact ih (fun x hx => hps x (by simp [hx])) gl hgl c hc3

theorem extract_canon (nm : List Char)
    (ps : List (List Char × List Char × List Char)) (gl sfx : List Char)
    (hnm : nmOK nm) (hps : psOK ps) (hgl : txtOK gl)
    (hsfx : ∀ c ∈ sfx, isQuote c = false) :
    extractExistingKeys (canonFile nm ps gl sfx) = ps.map (fun e => e.2.1) := by
  unfold extractExistingKeys canonFile
  rw [List.append_assoc, bodyOf_append,
    scanKV_skip false _ (fun c hc => (mapHdr_facts hnm c hc).1),
    scanKV_bodyOf ps _ (fun e he => ⟨fun c hc => ((hps e he).1 c hc).1,
      (hps e he).2.1.1, fun c hc => ((hps e he).2.1.2 c hc).1,
      fun c hc => ((hps e he).2.2 c hc).1⟩),
    scanKV_skip false gl (fun c hc => (hgl c hc).1),
    scanKV_cons_nonquote false _ (by decide), scanKV_nil_of_nonquote sfx hsfx]
  simp

theorem merge_canon_write_nil (nm sfx : List Char) (nk : List (List Char))
    (hnm : nmOK nm) (hsfx : ∀ c ∈ sfx, isQuote c = false)
    (hnk : ∀ k ∈ nk, k ≠ [] ∧ txtOK k) :
    mergeNewEntries (canonFile nm [] [] sfx) (nk.map (fun k => (k, k))) =
      some (nlc :: (joinComma ((nk.map (fun k => (k, k))).map
          (fun kv => entryLine kv.1 kv.2)) ++
        nlc :: (mapHdr nm ++ rbc :: sfx))) ∧
    extractExistingKeys (nlc :: (joinComma ((nk.map (fun k => (k, k))).map
          (fun kv => entryLine kv.1 kv.2)) ++
        nlc :: (mapHdr nm ++ rbc :: sfx))) = nk := by
  have hpairs : ∀ e ∈ nk.map (fun k => (k, k)), e.1 ≠ [] ∧
      (∀ c ∈ e.1, isQuote c = false) ∧ (∀ c ∈ e.2, isQuote c = false) := by
    intro e he
    obtain ⟨k, hkmem, rfl⟩ := List.mem_map.1 he
    obtain ⟨hne, htxt⟩ := hnk k hkmem
    exact ⟨hne, fun c hc => (htxt c hc).1, fun c hc => (htxt c hc).1⟩
  have hesnd : ∀ c ∈ joinComma ((nk.map (fun k => (k, k))).map
      (fun kv => entryLine kv.1 kv.2)), c ≠ dollarc := by
    apply joinComma_entryLines_no_dollar
    intro e he
    obtain ⟨k, hkmem, rfl⟩ := List.mem_map.1 he
    exact ⟨fun c hc => ((hnk k hkmem).2 c hc).2.2,
      fun c hc => ((hnk k hkmem).2 c hc).2.2⟩
  constructor
  · have hfm : findMap (canonFile nm [] [] sfx) =
        some ⟨[], mapHdr nm ++ bodyOf [] [] ++ [rbc], bodyOf [] [], sfx⟩ :=
      findMap_canon nm (bodyOf [] []) sfx hnm.1
        (fun c hc => (hnm.2 c hc).1) (fun c hc => (hnm.2 c hc).2.1)
        (fun c hc => by cases hc)
    unfold mergeNewEntries
    rw [hfm]
    dsimp only
    rw [if_pos (by rfl)]
    unfold strReplaceOnce
    rw [show bodyOf ([] : List (List Char × List Char × List Char)) [] =
      ([] : List Char) from rfl, firstOcc_nil_pat]
    dsimp only
    have hrepnd : ∀ c ∈ nlc :: (joinComma ((nk.map (fun k => (k, k))).map
        (fun kv => entryLine kv.1 kv.2)) ++ [nlc]), c ≠ dollarc := by
      intro c hc
      rcases List.mem_cons.1 hc with hc2 | hc2
      · subst hc2; decide
      · rcases List.mem_append.1 hc2 with hc3 | hc3
        · exact hesnd c hc3
        · rcases List.mem_singleton.1 hc3 with rfl
          decide
    rw [substDollar_no_dollar _ _ _ _ hrepnd]
    simp
  · unfold extractExistingKeys
    rw [scanKV_cons_nonquote false _ (by decide),
      scanKV_entryLines _ _ hpairs,
      scanKV_cons_nonquote false _ (by decide),
      scanKV_skip false _ (fun c hc => (mapHdr_facts hnm c hc).1),
      scanKV_cons_nonquote false _ (by decide),
      scanKV_nil_of_nonquote sfx hsfx]
    simp
    rw [show ((fun p : List Char × List Char => p.1) ∘ fun k : List Char => (k, k)) =
      id from rfl, List.map_id]

theorem merge_canon_write_cons
    (nm gl sfx : List Char) (e0 : List Char × List Char × List Char)
    (ps' : List (List Char × List Char × List Char)) (nk : List (List Char))
    (hnm : nmOK nm) (hps : psOK (e0 :: ps')) (hgl : txtOK gl)
    (hsfx : ∀ c ∈ sfx, isQuote c = false)
    (hnk : ∀ k ∈ nk, k ≠ [] ∧ txtOK k)
    (hhead : e0.1 = [] ∨ ∃ g2, e0.1 = nlc :: g2) :
    mergeNewEntries (canonFile nm (e0 :: ps') gl sfx) (nk.map (fun k => (k, k))) =
      some (mapHdr nm ++ bodyOf (e0 :: ps') (gl ++ ',' :: nlc ::
          (joinComma ((nk.map (fun k => (k, k))).map
            (fun kv => entryLine kv.1 kv.2)) ++ nlc :: rbc :: sfx))) ∧
    extractExistingKeys (mapHdr nm ++ bodyOf (e0 :: ps') (gl ++ ',' :: nlc ::
          (joinComma ((nk.map (fun k => (k, k))).map
            (fun kv => entryLine kv.1 kv.2)) ++ nlc :: rbc :: sfx))) =
      (e0 :: ps').map (fun e => e.2.1) ++ nk := by
  obtain ⟨g, k, v⟩ := e0
  have hpairs : ∀ e ∈ nk.map (fun x => (x, x)), e.1 ≠ [] ∧
      (∀ c ∈ e.1, isQuote c = false) ∧ (∀ c ∈ e.2, isQuote c = false) := by
    intro e he
    obtain ⟨x, hxmem, rfl⟩ := List.mem_map.1 he
    obtain ⟨hne, htxt⟩ := hnk x hxmem
    exact ⟨hne, fun c hc => (htxt c hc).1, fun c hc => (htxt c hc).1⟩
  have hesnd : ∀ c ∈ joinComma ((nk.map (fun x => (x, x))).map
      (fun kv => entryLine kv.1 kv.2)), c ≠ dollarc := by
    apply joinComma_entryLines_no_dollar
    intro e he
    obtain ⟨x, hxmem, rfl⟩ := List.mem_map.1 he
    exact ⟨fun c hc => ((hnk x hxmem).2 c hc).2.2,
      fun c hc => ((hnk x hxmem).2 c hc).2.2⟩
  constructor
  · have hfm : findMap (canonFile nm ((g, k, v) :: ps') gl sfx) =
        some ⟨[], mapHdr nm ++ bodyOf ((g, k, v) :: ps') gl ++ [rbc],
          bodyOf ((g, k, v) :: ps') gl, sfx⟩ :=
      findMap_canon nm (bodyOf ((g, k, v) :: ps') gl) sfx hnm.1
        (fun c hc => (hnm.2 c hc).1) (fun c hc => (hnm.2 c hc).2.1)
        (bodyOf_no_rbc hps gl (fun c hc => (hgl c hc).2.1))
    have hdqcmem : dqc ∈ bodyOf ((g, k, v) :: ps') gl := by
      show dqc ∈ g ++ (entryChars k v ++ bodyOf ps' gl)
      simp [entryChars]
    obtain ⟨b0, bt, hb, hne⟩ : ∃ b0 bt,
        bodyOf ((g, k, v) :: ps') gl = b0 :: bt ∧
        ∀ c ∈ mapHdr nm, b0 ≠ c := by
      rcases hhead with hg | ⟨g2, hg⟩
      · simp only at hg
        subst hg
        exact ⟨dqc, (k ++ dqc :: ':' :: ' ' :: dqc :: (v ++ [dqc])) ++
          bodyOf ps' gl, rfl, fun c hc => (mapHdr_facts hnm c hc).2.1⟩
      · simp only at hg
        subst hg
        exact ⟨nlc, g2 ++ (entryChars k v ++ bodyOf ps' gl), rfl,
          fun c hc => (mapHdr_facts hnm c hc).2.2⟩
    have hocc : firstOcc (mapHdr nm ++ bodyOf ((g, k, v) :: ps') gl ++ [rbc])
        (bodyOf ((g, k, v) :: ps') gl) = some (mapHdr nm).length := by
      rw [hb]
      exact firstOcc_boundary b0 bt [rbc] (mapHdr nm) hne
    have htake : (mapHdr nm ++ bodyOf ((g, k, v) :: ps') gl ++ [rbc]).take
        (mapHdr nm).length = mapHdr nm := by
      rw [List.append_assoc, List.take_left]
    have hdrop : (mapHdr nm ++ bodyOf ((g, k, v) :: ps') gl ++ [rbc]).drop
        ((mapHdr nm).length + (bodyOf ((g, k, v) :: ps') gl).length) = [rbc] := by
      rw [show (mapHdr nm).length + (bodyOf ((g, k, v) :: ps') gl).length =
        (mapHdr nm ++ bodyOf ((g, k, v) :: ps') gl).length from
        (List.length_append _ _).symm, List.drop_left]
    have hrepnd : ∀ c ∈ bodyOf ((g, k, v) :: ps') gl ++
        (',' :: nlc :: (joinComma ((nk.map (fun x => (x, x))).map
          (fun kv => entryLine kv.1 kv.2)) ++ [nlc])), c ≠ dollarc := by
      intro c hc
      rcases List.mem_append.1 hc with hc2 | hc2
      · exact bodyOf_no_dollar hps gl (fun d hd => (hgl d hd).2.2) c hc2
      · rcases List.mem_cons.1 hc2 with hc3 | hc3
        · subst hc3; decide
        · rcases List.mem_cons.1 hc3 with hc4 | hc4
          · subst hc4; decide
          · rcases List.mem_append.1 hc4 with hc5 | hc5
            · exact hesnd c hc5
            · rcases List.mem_singleton.1 hc5 with rfl
              decide
    unfold mergeNewEntries
    rw [hfm]
    dsimp only
    rw [if_neg (trimJs_ne_nil hdqcmem (by decide))]
    unfold strReplaceOnce
    rw [hocc]
    dsimp only
    rw [htake, hdrop, substDollar_no_dollar _ _ _ _ hrepnd]
    simp only [List.nil_append, List.append_assoc, List.cons_append,
      List.singleton_append, List.append_nil, Option.some.injEq]
    rw [bodyOf_append]
  · unfold extractExistingKeys
    rw [scanKV_skip false _ (fun c hc => (mapHdr_facts hnm c hc).1),
      scanKV_bodyOf ((g, k, v) :: ps') _
        (fun e he => ⟨fun c hc => ((hps e he).1 c hc).1,
          (hps e he).2.1.1, fun c hc => ((hps e he).2.1.2 c hc).1,
          fun c hc => ((hps e he).2.2 c hc).1⟩),
      scanKV_skip false gl (fun c hc => (hgl c hc).1),
      scanKV_cons_nonquote false _ (by decide),
      scanKV_cons_nonquote false _ (by decide),
      scanKV_entryLines _ _ hpairs,
      scanKV_cons_nonquote false _ (by decide),
      scanKV_cons_nonquote false _ (by decide),
      scanKV_nil_of_nonquote sfx hsfx]
    simp
    rw [show ((fun p : List Char × List Char => p.1) ∘ fun x : List Char => (x, x)) =
      id from rfl, List.map_id]
    rw [show ((fun p : List Char × List Char => p.1) ∘
      fun e : List Char × List Char × List Char => e.2) =
      (fun e : List Char × List Char × List Char => e.2.1) from rfl]

/-- The failing input for the literal claim C3: a file with a populated map
and a key list containing the empty key.  The write path emits the entry
with an empty quoted key, which `extractExistingKeys` (whose key class is
`[^"']+`, one character or more) can never re-extract, so the second run
counts and writes the same key again. -/
def c3CexContent : List Char :=
  "Map<String, String> en = ".toList ++
    lbc :: dqc :: 'a' :: dqc :: ':' :: ' ' :: dqc :: 'b' :: dqc :: rbc :: [';']

/-- Claim C3, literal reading, refuted: running the merge twice with the key
list `[""]` adds one entry both times, and the second run writes again. -/
theorem c3_idempotence_counterexample :
    (mergeNT c3CexContent [[]]).1 = 1 ∧
    (mergeNT ((mergeNT c3CexContent [[]]).2.getD c3CexContent) [[]]).1 = 1 ∧
    (mergeNT ((mergeNT c3CexContent [[]]).2.getD c3CexContent) [[]]).2 ≠ none := by
  decide

/-- Claim C3 (amended): on well-formed locale files — a single map
declaration whose body interleaves quote/brace/dollar-free glue with
`"key": "value"` entries over quote/brace/dollar-free texts, where the body
is empty or starts at an entry or at a newline-led glue — and for key lists
of non-empty quote/brace/dollar-free keys, the merge is idempotent: a second
run with the same key list returns 0 and performs no write, so the file
after the second run is byte-identical to the file after the first. -/
theorem c3_merge_idempotent_amended
    (nm gl sfx : List Char)
    (ps : List (List Char × List Char × List Char))
    (ks : List (List Char))
    (hnm : nmOK nm) (hps : psOK ps) (hgl : txtOK gl)
    (hsfx : ∀ c ∈ sfx, isQuote c = false)
    (hks : ksOK ks)
    (hhead : match ps with
      | [] => gl = []
      | (g, _, _) :: _ => g = [] ∨ g.head? = some nlc) :
    mergeNT ((mergeNT (canonFile nm ps gl sfx) ks).2.getD
        (canonFile nm ps gl sfx)) ks = (0, none) ∧
    (mergeNT ((mergeNT (canonFile nm ps gl sfx) ks).2.getD
        (canonFile nm ps gl sfx)) ks).2.getD
      ((mergeNT (canonFile nm ps gl sfx) ks).2.getD (canonFile nm ps gl sfx)) =
      (mergeNT (canonFile nm ps gl sfx) ks).2.getD (canonFile nm ps gl sfx) := by
  have hex1 : extractExistingKeys (canonFile nm ps gl sfx) =
      ps.map (fun e => e.2.1) := extract_canon nm ps gl sfx hnm hps hgl hsfx
  by_cases hnk : newKeysOf (canonFile nm ps gl sfx) ks = []
  · have hrun1 : mergeNT (canonFile nm ps gl sfx) ks = (0, none) := by
      unfold mergeNT
      cases hfm : findMap (canonFile nm ps gl sfx) with
      | none => rfl
      | some mm =>
        dsimp only
        rw [if_pos hnk]
    rw [hrun1]
    dsimp only [Option.getD]
    rw [hrun1]
    exact ⟨rfl, rfl⟩
  · have hnkOK : ∀ k ∈ newKeysOf (canonFile nm ps gl sfx) ks, k ≠ [] ∧ txtOK k :=
      fun k hk => hks k (List.mem_of_mem_filter hk)
    obtain ⟨c2, hval, hex2⟩ : ∃ c2,
        mergeNewEntries (canonFile nm ps gl sfx)
          ((newKeysOf (canonFile nm ps gl sfx) ks).map (fun k => (k, k))) =
          some c2 ∧
        extractExistingKeys c2 =
          ps.map (fun e => e.2.1) ++ newKeysOf (canonFile nm ps gl sfx) ks := by
      rcases ps with _ | ⟨⟨g, k, v⟩, ps'⟩
      · have hgl0 : gl = [] := hhead
        subst hgl0
        obtain ⟨h1, h2⟩ := merge_canon_write_nil nm sfx
          (newKeysOf (canonFile nm [] [] sfx) ks) hnm hsfx hnkOK
        exact ⟨_, h1, by simpa using h2⟩
      · have hhead2 : (g, k, v).1 = [] ∨ ∃ g2, (g, k, v).1 = nlc :: g2 := by
          rcases hhead with hg | hg
          · exact Or.inl hg
          · rcases g with _ | ⟨c, g2⟩
            · simp at hg
            · refine Or.inr ⟨g2, ?_⟩
              have hc : c = nlc := by simpa using hg
              rw [hc]
        obtain ⟨h1, h2⟩ := merge_canon_write_cons nm gl sfx (g, k, v) ps'
          (newKeysOf (canonFile nm ((g, k, v) :: ps') gl sfx) ks)
          hnm hps hgl hsfx hnkOK hhead2
        exact ⟨_, h1, h2⟩
    have hrun1 : mergeNT (canonFile nm ps gl sfx) ks =
        ((newKeysOf (canonFile nm ps gl sfx) ks).length, some c2) := by
      unfold mergeNT
      cases hfm : findMap (canonFile nm ps gl sfx) with
      | none =>
        exfalso
        unfold mergeNewEntries at hval
        rw [hfm] at hval
        cases hval
      | some mm =>
        dsimp only
        rw [if_neg hnk, hval]
    rw [hrun1]
    dsimp only [Option.getD]
    have hall : ∀ x ∈ ks, x ∈ extractExistingKeys c2 := by
      intro x hx
      rw [hex2]
      by_cases hmem : x ∈ ps.map (fun e => e.2.1)
      · exact List.mem_append.2 (Or.inl hmem)
      · refine List.mem_append.2 (Or.inr (List.mem_filter.2 ⟨hx, ?_⟩))
        rw [hex1]
        simpa using hmem
    have hnil2 : newKeysOf c2 ks = [] := by
      rw [newKeysOf, List.filter_eq_nil_iff]
      intro x hx
      simpa using hall x hx
    have hrun2 : mergeNT c2 ks = (0, none) := by
      unfold mergeNT
      cases hfm2 : findMap c2 with
      | none => rfl
      | some mm =>
        dsimp only
        rw [if_pos hnil2]
    rw [hrun2]
    exact ⟨rfl, rfl⟩

/-- Witness for the amended claim C3 at a concrete well-formed file: the
map `en` with one entry and glue, merging the key list `[hi]` twice. -/
theorem c3_merge_idempotent_amended_witness :
    mergeNT ((mergeNT (canonFile ['e', 'n'] [([], ['a'], ['b'])] [nlc] [';'])
        [['h', 'i']]).2.getD
      (canonFile ['e', 'n'] [([], ['a'], ['b'])] [nlc] [';'])) [['h', 'i']] =
      (0, none) :=
  (c3_merge_idempotent_amended ['e', 'n'] [nlc] [';'] [([], ['a'], ['b'])]
    [['h', 'i']] (by unfold nmOK; decide) (by unfold psOK txtOK; decide)
    (by unfold txtOK; decide) (by decide) (by unfold ksOK txtOK; decide)
    (by decide)).1
